import Mathlib

/-!
Verification development for the `generate-srt` repository.

Strings are modelled as `List Char` (Python `str` values, one `Char` per
Python character).  Python integers are modelled as `Int` (or `Nat` where the
source guarantees non-negativity).  Functions returning values are pure;
functions that can raise return `Except`.  Each definition is a shallow
embedding of the named source function.
-/

namespace GenerateSrt

/-- Whitespace characters recognised by Python's `str.strip` / `\s`
(ASCII whitespace: space, tab, newline, carriage return, vertical tab,
form feed). -/
def pyIsSpace (c : Char) : Bool :=
  c = ' ' || c = '\t' || c = '\n' || c = '\r' || c = '\x0b' || c = '\x0c'

/-- Python `str.lstrip()` on a character list. -/
def lstripL (l : List Char) : List Char := l.dropWhile pyIsSpace

/-- Python `str.rstrip()` on a character list. -/
def rstripL (l : List Char) : List Char := (l.reverse.dropWhile pyIsSpace).reverse

/-- Python `str.strip()` on a character list. -/
def pyStrip (l : List Char) : List Char := rstripL (lstripL l)

/-- `src/main.py` `norm_text`: after stripping, collapse every whitespace run
to a single space (`re.sub(r"\s+", " ", s)`).  The Boolean flag records
whether the previous character was part of a whitespace run. -/
def collapseWSGo : Bool → List Char → List Char
  | _, [] => []
  | inRun, c :: cs =>
    if pyIsSpace c then
      if inRun then collapseWSGo true cs else ' ' :: collapseWSGo true cs
    else c :: collapseWSGo false cs

/-- `src/main.py` `norm_text`: `s.strip()` then collapse internal whitespace
runs to single spaces. -/
def norm_text (s : List Char) : List Char := collapseWSGo false (pyStrip s)

/-- The trailing-punctuation set of `src/main.py` `strip_trailing_punc`
(the string literal `"，。！？；：、,.!?;:~…—-·\"'）)】]》>》"`). -/
def trailingList : List Char :=
  ['，', '。', '！', '？', '；', '：', '、', ',', '.', '!', '?', ';', ':',
   '~', '…', '—', '-', '·', '"', '\'', '）', ')', '】', ']', '》', '>', '》']

/-- The while-loop of `strip_trailing_punc`:
`while t and t[-1] in trailing: t = t[:-1].rstrip()`.
The fuel argument only bounds the iteration count; every call site passes at
least the length of the string, which the loop can never exceed because each
iteration removes at least one character. -/
def stripPuncLoop : Nat → List Char → List Char
  | 0, t => t
  | fuel + 1, t =>
    match t.getLast? with
    | some c => if c ∈ trailingList then stripPuncLoop fuel (rstripL t.dropLast) else t
    | none => t

/-- `src/main.py` `strip_trailing_punc`: empty input is returned as is;
otherwise the text is right-stripped and trailing punctuation is removed in a
loop, right-stripping after each removal. -/
def strip_trailing_punc (text : List Char) : List Char :=
  if text = [] then text else stripPuncLoop text.length (rstripL text)

/-- A character the stripping loop can consume: whitespace or trailing
punctuation. -/
def isStrippable (c : Char) : Bool := pyIsSpace c || c ∈ trailingList

/-- Decimal digit characters of a natural number, via `Nat.digitChar`; the
fuel is an upper bound on the number of divisions by ten and every call site
passes `n + 1`, which always suffices. -/
def natDigitsAux : Nat → Nat → List Char
  | 0, n => [Nat.digitChar n]
  | fuel + 1, n =>
    if n < 10 then [Nat.digitChar n]
    else natDigitsAux fuel (n / 10) ++ [Nat.digitChar (n % 10)]

/-- Decimal representation of a natural number, as Python `str(n)` produces
for non-negative `n`. -/
def natDigits (n : Nat) : List Char := natDigitsAux (n + 1) n

/-- Python `f"{n:02d}"` for non-negative `n`: pad to width two with zeros. -/
def pad2 (n : Nat) : List Char :=
  if n < 10 then '0' :: natDigits n else natDigits n

/-- Python `f"{n:03d}"` for non-negative `n`: pad to width three with zeros. -/
def pad3 (n : Nat) : List Char :=
  if n < 10 then '0' :: '0' :: natDigits n
  else if n < 100 then '0' :: natDigits n
  else natDigits n

/-- `src/main.py` `srt_time`: negative input is clamped to zero
(`Int.toNat` performs exactly that clamp), then the milliseconds are split by
integer division into hours, minutes, seconds and milliseconds and rendered
as `HH:MM:SS,mmm`. -/
def srt_time (ms : Int) : List Char :=
  let m : Nat := ms.toNat
  pad2 (m / 3600000) ++ ':' :: pad2 (m % 3600000 / 60000)
    ++ ':' :: pad2 (m % 60000 / 1000) ++ ',' :: pad3 (m % 1000)

/-- Numeric value of a digit character (`'0'` ↦ 0, …, `'9'` ↦ 9). -/
def digitVal (c : Char) : Nat := c.toNat - 48

/-- Value of a decimal digit string, most significant digit first. -/
def digitsToNat (l : List Char) : Nat := l.foldl (fun a c => 10 * a + digitVal c) 0

/-- Re-parse a timestamp string of the shape `\d{2,}:\d{2}:\d{2},\d{3}` back
to milliseconds; `none` when the string does not match that pattern.  This is
the "recompute the value from the output" direction of the spec's
timestamp-formatter property. -/
def reparseTime (l : List Char) : Option Nat :=
  let h := l.takeWhile Char.isDigit
  match l.dropWhile Char.isDigit with
  | ':' :: m1 :: m2 :: ':' :: s1 :: s2 :: ',' :: x1 :: x2 :: x3 :: [] =>
    if 2 ≤ h.length ∧ ([m1, m2, s1, s2, x1, x2, x3].all Char.isDigit) then
      some (digitsToNat h * 3600000 + (10 * digitVal m1 + digitVal m2) * 60000
        + (10 * digitVal s1 + digitVal s2) * 1000
        + (100 * digitVal x1 + 10 * digitVal x2 + digitVal x3))
    else none
  | _ => none

/-- `src/main.py` `@dataclass Segment`. -/
structure Segment where
  start_ms : Int
  end_ms : Int
  text : List Char
  deriving DecidableEq, Repr

/-- One element of the `sentence_info` list.  `funasr_to_segments` skips
entries that are not dictionaries (`other`); a dictionary entry carries
`s.get("text", "")` (absent key already replaced by the default `""`) and the
integer values `int(s.get("start", 0))` and `int(s.get("end", 0))`. -/
inductive SentEntry where
  | other
  | dict (text : List Char) (start stop : Int)
  deriving DecidableEq, Repr

/-- The first element `res[0]` of a FunASR result: a dictionary which may
carry `sentence_info` (sentence-level timing), `text` and `timestamp`
(token-level timing).  `sentence_info = none` models an absent key or a
`None` value; `some []` models an empty list — both are falsy in
`if not sentences`. -/
structure FunASRResult where
  sentence_info : Option (List SentEntry)
  text : Option (List Char)
  timestamp : Option (List (Int × Int))
  deriving DecidableEq, Repr

/-- The two `RuntimeError`s `funasr_to_segments` can raise: an unexpected
result format (`res` not a non-empty list of dictionaries) and the
missing-timestamp condition ("FunASR result has NO sentence_info"). -/
inductive BuildError where
  | badFormat
  | noSentenceInfo
  deriving DecidableEq, Repr

/-- The per-sentence loop of `funasr_to_segments`: normalise and strip the
text, skip empty texts, read `start`/`end`, apply `end <= start → end :=
start + 400`, clamp `start` at 0 and `end` at `audio_ms` — in exactly the
source's order. -/
def collectSegs (audio_ms : Int) (sentences : List SentEntry) : List Segment :=
  sentences.filterMap fun e =>
    match e with
    | .other => none
    | .dict tx st ed =>
      let text := strip_trailing_punc (norm_text tx)
      if text = [] then none
      else
        let ed1 := if ed ≤ st then st + 400 else ed
        let st1 := if st < 0 then 0 else st
        let ed2 := if ed1 > audio_ms then audio_ms else ed1
        some ⟨st1, ed2, text⟩

/-- The sort key of `segs.sort(key=lambda x: (x.start_ms, x.end_ms))`:
lexicographic order on `(start_ms, end_ms)`. -/
def leSeg (a b : Segment) : Prop :=
  a.start_ms < b.start_ms ∨ (a.start_ms = b.start_ms ∧ a.end_ms ≤ b.end_ms)

instance : DecidableRel leSeg := fun a b =>
  decidable_of_iff
    (a.start_ms < b.start_ms ∨ (a.start_ms = b.start_ms ∧ a.end_ms ≤ b.end_ms)) Iff.rfl

instance : IsTotal Segment leSeg :=
  ⟨fun a b => by unfold leSeg; omega⟩

instance : IsTrans Segment leSeg :=
  ⟨fun a b c hab hbc => by unfold leSeg at *; omega⟩

/-- The monotonicity sweep of `funasr_to_segments`: walk the sorted segments
carrying `last_end`, force `start_ms = max(start_ms, last_end)` and, when the
end collapses, `end_ms = min(start_ms + 400, audio_ms)`. -/
def sweepGo (audio_ms : Int) (last_end : Int) : List Segment → List Segment
  | [] => []
  | s :: rest =>
    let st := if s.start_ms < last_end then last_end else s.start_ms
    let ed := if s.end_ms ≤ st then min (st + 400) audio_ms else s.end_ms
    ⟨st, ed, s.text⟩ :: sweepGo audio_ms ed rest

/-- The final step of `funasr_to_segments`: if the list is non-empty and the
last cue's end trails the media duration by at least 800 ms, pull that end to
the media duration. -/
def extendLast (audio_ms : Int) (l : List Segment) : List Segment :=
  match l.getLast? with
  | none => l
  | some s =>
    if audio_ms - s.end_ms ≥ 800 then l.dropLast ++ [⟨s.start_ms, audio_ms, s.text⟩]
    else l

/-- `src/main.py` `funasr_to_segments`.  The raw `res` argument is modelled
as the list of result dictionaries (a non-list `res` value is outside the
typed model; the empty-list check is kept).  `audio_ms` stands for
`int(round(audio_dur_sec * 1000))`. -/
def funasr_to_segments (res : List FunASRResult) (audio_ms : Int) :
    Except BuildError (List Segment) :=
  match res with
  | [] => .error .badFormat
  | r0 :: _ =>
    match r0.sentence_info with
    | none => .error .noSentenceInfo
    | some [] => .error .noSentenceInfo
    | some sentences =>
      let segs := collectSegs audio_ms sentences
      let sorted := List.insertionSort leSeg segs
      let fixed := sweepGo audio_ms 0 sorted
      .ok (extendLast audio_ms fixed)

/-- Python `"\n".join(lines)` on a list of lines. -/
def joinNL : List (List Char) → List Char
  | [] => []
  | [l] => l
  | l :: ls => l ++ '\n' :: joinNL ls

/-- The timestamp line `f"{srt_time(seg.start_ms)} --> {srt_time(seg.end_ms)}"`
of `write_srt`. -/
def timeRange (s : Segment) : List Char :=
  srt_time s.start_ms ++ ' ' :: '-' :: '-' :: '>' :: ' ' :: srt_time s.end_ms

/-- The `lines` list built by `write_srt`, starting the 1-based enumeration
at `i`: for each segment the index line, the timestamp line, the text and an
empty separator line. -/
def writeLinesGo (i : Nat) : List Segment → List (List Char)
  | [] => []
  | s :: rest => natDigits i :: timeRange s :: s.text :: [] :: writeLinesGo (i + 1) rest

/-- `src/main.py` `write_srt`, modelled as the file content it writes:
`"\n".join(lines)` for the enumerated lines. -/
def write_srt (segs : List Segment) : List Char := joinNL (writeLinesGo 1 segs)

/-- State of the `re.split(r'\n\n+', ...)` scanner: reading block characters
(`normal`), just read a single newline that may open a separator (`pending`),
or consuming the remaining newlines of a separator run (`skipping`). -/
inductive SplitMode where
  | normal
  | pending
  | skipping
  deriving DecidableEq, Repr

/-- `re.split(r'\n\n+', content)`: split at every maximal run of two or more
newlines.  `cur` accumulates the current block in reverse; a lone newline
(`pending` at a non-newline or at the end) belongs to the block. -/
def splitGo (mode : SplitMode) (cur : List Char) : List Char → List (List Char)
  | [] =>
    match mode with
    | .pending => [('\n' :: cur).reverse]
    | _ => [cur.reverse]
  | c :: cs =>
    match mode with
    | .normal =>
      if c = '\n' then splitGo .pending cur cs else splitGo .normal (c :: cur) cs
    | .pending =>
      if c = '\n' then cur.reverse :: splitGo .skipping [] cs
      else splitGo .normal (c :: '\n' :: cur) cs
    | .skipping =>
      if c = '\n' then splitGo .skipping cur cs else splitGo .normal (c :: cur) cs

/-- `re.split(r'\n\n+', content)`. -/
def splitNN (content : List Char) : List (List Char) := splitGo .normal [] content

/-- Python `s.split('\n')` on a character list. -/
def splitNL : List Char → List (List Char)
  | [] => [[]]
  | c :: cs =>
    if c = '\n' then [] :: splitNL cs
    else
      match splitNL cs with
      | [] => [[c]]
      | r :: rs => (c :: r) :: rs

/-- One parsed subtitle entry, the 4-tuple
`(序号, 时间轴, 原文本, 修正后文本)` used throughout `src/optimize.py`. -/
structure SubEntry where
  idx : List Char
  ts : List Char
  orig : List Char
  corr : List Char
  deriving DecidableEq, Repr

/-- The per-block body of `parse_srt`'s loop: strip the block, split it into
lines, discard it when it has fewer than three lines, otherwise read index,
timestamp and text (remaining lines joined and stripped); the parsed text is
stored in both text slots. -/
def parseBlock (block : List Char) : Option SubEntry :=
  let lines := splitNL (pyStrip block)
  if 3 ≤ lines.length then
    some ⟨pyStrip lines.headI, pyStrip (lines.drop 1).headI,
      pyStrip (joinNL (lines.drop 2)), pyStrip (joinNL (lines.drop 2))⟩
  else none

/-- `src/optimize.py` `parse_srt`, modelled on the file content: strip the
content, split it into blocks at blank-line runs, and keep every block
`parseBlock` accepts. -/
def parse_srt (content : List Char) : List SubEntry :=
  (splitNN (pyStrip content)).filterMap parseBlock

/-- One correction record `{index, original, corrected, reason}` as produced
by the proofreading collaborator; the fields are the string values read by
`apply_corrections` (`c['index']`, `c['corrected']`) and `write_report`
(`c['original']`, `c['reason']`). -/
structure Corr where
  index : List Char
  original : List Char
  corrected : List Char
  reason : List Char
  deriving DecidableEq, Repr

/-- The dictionary `correction_map = {c['index']: c for c in corrections}`:
a lookup in which a later record with the same index overwrites an earlier
one, exactly as repeated dictionary insertion does. -/
def correctionMapGet (corrections : List Corr) (k : List Char) : Option Corr :=
  corrections.foldl (fun acc c => if c.index = k then some c else acc) none

/-- `src/optimize.py` `apply_corrections`: for every parsed cue, take the
corrected text from the matching record if its index is a key of the
correction map, otherwise repeat the original text. -/
def apply_corrections (subtitles : List SubEntry) (corrections : List Corr) :
    List SubEntry :=
  subtitles.map fun e =>
    match correctionMapGet corrections e.idx with
    | some c => ⟨e.idx, e.ts, e.orig, c.corrected⟩
    | none => ⟨e.idx, e.ts, e.orig, e.orig⟩

/-- The `lines` list built by `write_optimized_srt`: index, timestamp,
corrected text, blank separator per entry. -/
def writeOptimizedLines : List SubEntry → List (List Char)
  | [] => []
  | e :: rest => e.idx :: e.ts :: e.corr :: [] :: writeOptimizedLines rest

/-- `src/optimize.py` `write_optimized_srt`, modelled as the file content it
writes. -/
def write_optimized_srt (subtitles : List SubEntry) : List Char :=
  joinNL (writeOptimizedLines subtitles)

/-- A decoded JSON value, the possible results of `json.loads`. -/
inductive JsonVal where
  | null
  | bool (b : Bool)
  | num (n : Int)
  | str (s : List Char)
  | arr (xs : List JsonVal)
  | obj (kvs : List (List Char × JsonVal))

/-- Python `dict.get(key, default)` on a JSON object whose key/value pairs
are listed in insertion order (a later duplicate key overwrites an earlier
one). -/
def pyDictGet (kvs : List (List Char × JsonVal)) (k : List Char)
    (default : JsonVal) : JsonVal :=
  (kvs.foldl (fun acc kv => if kv.1 = k then some kv.2 else acc) none).getD default

/-- The Python exceptions the modelled part of `optimize_srt` can raise but
does not catch. -/
inductive PyError where
  | attributeError
  | typeError
  | keyError
  deriving DecidableEq, Repr

/-- The response-handling step of `optimize_srt`:
`json.loads` + the two `.get` calls inside `try`, with only
`json.JSONDecodeError` caught.  The argument is the decode outcome of the
response text (`none` = `json.JSONDecodeError`).  A decode failure degrades
to `corrections = []`, `summary = "解析失败"`; a response that decodes to a
non-dictionary raises `AttributeError` at `response_data.get`, which is not
caught. -/
def parse_llm_response (response : Option JsonVal) :
    Except PyError (JsonVal × JsonVal) :=
  match response with
  | none => .ok (.arr [], .str "解析失败".toList)
  | some (.obj kvs) =>
    .ok (pyDictGet kvs "corrections".toList (.arr []),
      pyDictGet kvs "summary".toList (.str "无总结说明".toList))
  | some _ => .error .attributeError

/-- Conversion of one JSON correction entry to a `Corr` record.  It models
the field accesses `c['index']`, `c['original']`, `c['corrected']`,
`c['reason']` performed downstream by `apply_corrections` and
`write_report`: a missing key raises `KeyError`, a non-dictionary entry or a
non-string field is outside the typed record model and is reported as
`TypeError`. -/
def toCorr (v : JsonVal) : Except PyError Corr :=
  match v with
  | .obj kvs =>
    match pyDictGet kvs "index".toList .null, pyDictGet kvs "original".toList .null,
        pyDictGet kvs "corrected".toList .null, pyDictGet kvs "reason".toList .null with
    | .str i, .str o, .str c, .str r => .ok ⟨i, o, c, r⟩
    | _, _, _, _ => .error .keyError
  | _ => .error .typeError

/-- Conversion of the extracted `corrections` value to a record list; a
non-list value would make the downstream iteration fail. -/
def toCorrList (v : JsonVal) : Except PyError (List Corr) :=
  match v with
  | .arr xs => xs.mapM toCorr
  | _ => .error .typeError

/-- Rendering of the summary value into the report's f-string.  The modelled
code paths only ever produce string summaries; the rendering of the other
JSON shapes is schematic. -/
def pyStrOfJson : JsonVal → List Char
  | .str s => s
  | .null => "None".toList
  | .bool true => "True".toList
  | .bool false => "False".toList
  | .num n => if n < 0 then '-' :: natDigits (-n).toNat else natDigits n.toNat
  | .arr _ => "<list>".toList
  | .obj _ => "<dict>".toList

/-- `original[:50] + "..." if len(original) > 50 else original` in
`write_report`. -/
def truncate50 (s : List Char) : List Char :=
  if 50 < s.length then s.take 50 ++ "...".toList else s

/-- The per-correction detail lines of `write_report`. -/
def reportCorrLines (cs : List Corr) : List (List Char) :=
  cs.flatMap fun c =>
    ["### #".toList ++ c.index, [],
     "- **原文**: ".toList ++ c.original,
     "- **修正**: ".toList ++ c.corrected,
     "- **原因**: ".toList ++ c.reason, []]

/-- The comparison-table rows of `write_report`. -/
def reportTableLines (subtitles : List SubEntry) : List (List Char) :=
  subtitles.map fun e =>
    "| ".toList ++ e.idx ++ " | ".toList ++ truncate50 e.orig
      ++ " | ".toList ++ truncate50 e.corr ++ " | ".toList
      ++ (if e.orig ≠ e.corr then "✏️".toList else "✓".toList) ++ " |".toList

/-- `src/optimize.py` `write_report`, modelled as the Markdown content it
writes; `now` stands for the `datetime.now()` timestamp string and
`inputName`/`outputName` for the two basenames. -/
def write_report_content (inputName outputName : List Char)
    (subtitles : List SubEntry) (corrections : List Corr)
    (summary : List Char) (now : List Char) : List Char :=
  joinNL
    (["# 字幕校对报告".toList, [],
      "**生成时间**: ".toList ++ now ++ "  ".toList,
      "**原始文件**: `".toList ++ inputName ++ "`  ".toList,
      "**优化文件**: `".toList ++ outputName ++ "`  ".toList, [],
      "## 总体说明".toList, [], summary, [],
      "## 修正详情".toList, []]
    ++ (if corrections = [] then ["✅ 未发现需要修正的问题。".toList]
        else ("共修正 **".toList ++ natDigits corrections.length ++ "** 处：".toList)
          :: [] :: reportCorrLines corrections)
    ++ [[], "---".toList, [], "## 完整对照".toList, [],
        "| 序号 | 原文 | 修正后 | 状态 |".toList,
        "|------|------|--------|------|".toList]
    ++ reportTableLines subtitles)

/-- The per-file flow of `src/optimize.py` `optimize_srt` after the external
call, modelled on values instead of files: parse the input content, handle
the collaborator's response (`response` is its JSON-decode outcome), apply
the corrections and return the contents of the two files it writes — the
optimized subtitle file and the report. -/
def optimize_srt_core (content : List Char) (inputName outputName : List Char)
    (now : List Char) (response : Option JsonVal) :
    Except PyError (List Char × List Char) := do
  let subtitles := parse_srt content
  let (correctionsJson, summaryJson) ← parse_llm_response response
  let corrections ← toCorrList correctionsJson
  let summary := pyStrOfJson summaryJson
  let optimized := apply_corrections subtitles corrections
  return (write_optimized_srt optimized,
    write_report_content inputName outputName optimized corrections summary now)

/-- The record a key of `correction_map` is bound to: the last record of the
list carrying that index. -/
def lookupLast (corrections : List Corr) (k : List Char) : Option Corr :=
  (corrections.filter fun c => c.index = k).getLast?

/-- No two consecutive newlines (no blank line) in a character list. -/
def noNNb : List Char → Bool
  | c1 :: c2 :: rest => !(c1 = '\n' && c2 = '\n') && noNNb (c2 :: rest)
  | _ => true

/-- The subtitle-format invariants of one cue text, §3 of the spec: non-empty,
no blank line, no leading and no trailing whitespace. -/
def textOKb (t : List Char) : Bool :=
  !t.isEmpty && noNNb t && t.head?.all (fun c => !pyIsSpace c)
    && t.getLast?.all (fun c => !pyIsSpace c)

/-- The subtitle block `write_srt` emits for the `i`-th segment, without the
trailing blank separator line: index line, timestamp line, text. -/
def blockOf (i : Nat) (s : Segment) : List Char :=
  natDigits i ++ '\n' :: (timeRange s ++ '\n' :: s.text)

/-- The blocks of `write_srt`'s output, numbering from `i`. -/
def blocksGo (i : Nat) : List Segment → List (List Char)
  | [] => []
  | s :: rest => blockOf i s :: blocksGo (i + 1) rest

/-- Blocks joined by exactly one blank separator line (`"\n\n"`). -/
def interNN : List (List Char) → List Char
  | [] => []
  | [b] => b
  | b :: bs => b ++ '\n' :: '\n' :: interNN bs

/-- The entries `parse_srt` is expected to recover from `write_srt`'s output,
numbering from `i`. -/
def expectedEntries (i : Nat) : List Segment → List SubEntry
  | [] => []
  | s :: rest => ⟨natDigits i, timeRange s, s.text, s.text⟩ :: expectedEntries (i + 1) rest

/-! ### Generic list facts used throughout -/

theorem dropWhile_length_le' (p : Char → Bool) (l : List Char) :
    (l.dropWhile p).length ≤ l.length := by
  induction l with
  | nil => simp
  | cons a l ih =>
    rw [List.dropWhile_cons]
    split
    · exact Nat.le_succ_of_le ih
    · simp

theorem head_dropWhile_false (p : Char → Bool) :
    ∀ (l : List Char) (c : Char) (rs : List Char),
      l.dropWhile p = c :: rs → p c = false := by
  intro l
  induction l with
  | nil => intro c rs h; simp at h
  | cons a l ih =>
    intro c rs h
    rw [List.dropWhile_cons] at h
    split at h
    · exact ih c rs h
    · rename_i hpa
      cases h
      exact Bool.eq_false_iff.mpr hpa

theorem dropWhile_dropWhile_self (p : Char → Bool) (l : List Char) :
    (l.dropWhile p).dropWhile p = l.dropWhile p := by
  induction l with
  | nil => simp
  | cons a l ih =>
    rw [List.dropWhile_cons]
    split
    · exact ih
    · rw [List.dropWhile_cons]
      simp_all

theorem dropWhile_of_subpred (p q : Char → Bool)
    (hpq : ∀ c, p c = true → q c = true) (l : List Char) :
    (l.dropWhile p).dropWhile q = l.dropWhile q := by
  induction l with
  | nil => simp
  | cons a l ih =>
    rw [List.dropWhile_cons]
    split
    · rw [ih, List.dropWhile_cons]
      simp_all [hpq a]
    · rfl

/-! ### The trailing-punctuation stripper (claim C9) -/

theorem stripPuncLoop_eq (fuel : Nat) :
    ∀ r : List Char, (r.dropWhile pyIsSpace).length ≤ fuel →
      stripPuncLoop fuel ((r.dropWhile pyIsSpace).reverse)
        = (r.dropWhile isStrippable).reverse := by
  induction fuel with
  | zero =>
    intro r h
    have hz : r.dropWhile pyIsSpace = [] := by
      cases hr : r.dropWhile pyIsSpace with
      | nil => rfl
      | cons c cs => rw [hr] at h; simp at h
    have : r.dropWhile isStrippable = [] := by
      have := dropWhile_of_subpred pyIsSpace isStrippable
        (fun c hc => by simp [isStrippable, hc]) r
      rw [hz] at this
      simpa using this.symm
    rw [hz, this]
    rfl
  | succ fuel ih =>
    intro r h
    have hsub := dropWhile_of_subpred pyIsSpace isStrippable
      (fun c hc => by simp [isStrippable, hc]) r
    cases hr : r.dropWhile pyIsSpace with
    | nil =>
      have : r.dropWhile isStrippable = [] := by
        rw [hr] at hsub; simpa using hsub.symm
      rw [this]
      rfl
    | cons c rs =>
      have hc : pyIsSpace c = false := head_dropWhile_false pyIsSpace r c rs hr
      have hrev : (c :: rs).reverse = rs.reverse ++ [c] := by simp
      have hlast : ((c :: rs).reverse).getLast? = some c := by
        rw [hrev]; exact List.getLast?_concat _
      have hstrip : r.dropWhile isStrippable = (c :: rs).dropWhile isStrippable := by
        rw [← hsub, hr]
      by_cases hmem : c ∈ trailingList
      · have hstep : stripPuncLoop (fuel + 1) ((c :: rs).reverse)
            = stripPuncLoop fuel (rstripL ((c :: rs).reverse).dropLast) := by
          rw [stripPuncLoop, hlast]
          simp [hmem]
        have hdl : ((c :: rs).reverse).dropLast = rs.reverse := by
          rw [hrev]; exact List.dropLast_concat
        have hrst : rstripL rs.reverse = (rs.dropWhile pyIsSpace).reverse := by
          unfold rstripL; rw [List.reverse_reverse]
        have hbound : (rs.dropWhile pyIsSpace).length ≤ fuel := by
          have h1 : (rs.dropWhile pyIsSpace).length ≤ rs.length :=
            dropWhile_length_le' pyIsSpace rs
          have h2 : (c :: rs).length ≤ fuel + 1 := by rw [← hr]; exact h
          simp at h2
          omega
        rw [hstep, hdl, hrst, ih rs hbound, hstrip]
        have hcs : isStrippable c = true := by simp [isStrippable, hmem]
        rw [List.dropWhile_cons, hcs]
        simp
      · have hns : isStrippable c = false := by
          simp [isStrippable, hc, hmem]
        have hstep : stripPuncLoop (fuel + 1) ((c :: rs).reverse) = (c :: rs).reverse := by
          rw [stripPuncLoop, hlast]
          simp [hmem]
        rw [hstep, hstrip, List.dropWhile_cons, hns]
        simp

/-- Characterisation of `strip_trailing_punc`: it removes exactly the maximal
trailing run of whitespace and trailing-punctuation characters. -/
theorem strip_trailing_punc_eq (l : List Char) :
    strip_trailing_punc l = (l.reverse.dropWhile isStrippable).reverse := by
  unfold strip_trailing_punc
  split
  · subst l; rfl
  · have hb : (l.reverse.dropWhile pyIsSpace).length ≤ l.length := by
      have := dropWhile_length_le' pyIsSpace l.reverse
      simpa using this
    have := stripPuncLoop_eq l.length l.reverse hb
    unfold rstripL
    exact this

/-- Claim C9: the trailing-punctuation stripper is idempotent — applying
`strip_trailing_punc` twice yields the same result as applying it once. -/
theorem claim_C9_strip_idempotent (s : List Char) :
    strip_trailing_punc (strip_trailing_punc s) = strip_trailing_punc s := by
  rw [strip_trailing_punc_eq, strip_trailing_punc_eq, List.reverse_reverse,
    dropWhile_dropWhile_self]

/-- Witness for C9 at a concrete input. -/
theorem claim_C9_witness :
    strip_trailing_punc (strip_trailing_punc ['O', 'K', '!']) =
      strip_trailing_punc ['O', 'K', '!'] :=
  claim_C9_strip_idempotent ['O', 'K', '!']

/-! ### Decimal digits and the timestamp formatter (claim C7) -/

theorem digitChar_isDigit {k : Nat} (hk : k < 10) :
    (Nat.digitChar k).isDigit = true := by
  interval_cases k <;> decide

theorem digitVal_digitChar {k : Nat} (hk : k < 10) :
    digitVal (Nat.digitChar k) = k := by
  interval_cases k <;> decide

theorem natDigitsAux_all_digit :
    ∀ fuel n, n ≤ fuel → ∀ c ∈ natDigitsAux fuel n, c.isDigit = true := by
  intro fuel
  induction fuel with
  | zero =>
    intro n hn c hc
    have : n = 0 := Nat.le_zero.mp hn
    subst this
    simp [natDigitsAux] at hc
    subst hc
    decide
  | succ fuel ih =>
    intro n hn c hc
    rw [natDigitsAux] at hc
    split at hc
    · simp at hc
      subst hc
      exact digitChar_isDigit (by assumption)
    · rename_i h10
      simp at hc
      rcases hc with hc | hc
      · exact ih (n / 10) (by omega) c hc
      · subst hc
        exact digitChar_isDigit (Nat.mod_lt _ (by norm_num))

theorem natDigits_all_digit (n : Nat) : ∀ c ∈ natDigits n, c.isDigit = true :=
  natDigitsAux_all_digit (n + 1) n (Nat.le_succ n)

theorem natDigitsAux_ne_nil (fuel n : Nat) : natDigitsAux fuel n ≠ [] := by
  cases fuel with
  | zero => simp [natDigitsAux]
  | succ fuel =>
    rw [natDigitsAux]
    split
    · simp
    · simp

theorem digitsToNat_append_one (l : List Char) (c : Char) :
    digitsToNat (l ++ [c]) = 10 * digitsToNat l + digitVal c := by
  simp [digitsToNat, List.foldl_append]

theorem digitsToNat_natDigitsAux :
    ∀ fuel n, n ≤ fuel → digitsToNat (natDigitsAux fuel n) = n := by
  intro fuel
  induction fuel with
  | zero =>
    intro n hn
    have : n = 0 := Nat.le_zero.mp hn
    subst this
    decide
  | succ fuel ih =>
    intro n hn
    rw [natDigitsAux]
    split
    · rename_i h10
      show digitsToNat [Nat.digitChar n] = n
      have : digitsToNat [Nat.digitChar n] = digitVal (Nat.digitChar n) := by
        simp [digitsToNat]
      rw [this, digitVal_digitChar h10]
    · rename_i h10
      rw [digitsToNat_append_one, ih (n / 10) (by omega),
        digitVal_digitChar (Nat.mod_lt _ (by norm_num))]
      omega

theorem digitsToNat_natDigits (n : Nat) : digitsToNat (natDigits n) = n :=
  digitsToNat_natDigitsAux (n + 1) n (Nat.le_succ n)

theorem digitsToNat_cons_zero (l : List Char) :
    digitsToNat ('0' :: l) = digitsToNat l := rfl

theorem natDigits_lt_ten {n : Nat} (h : n < 10) :
    natDigits n = [Nat.digitChar n] := by
  unfold natDigits natDigitsAux
  simp [h]

theorem natDigits_two {n : Nat} (h10 : 10 ≤ n) (h100 : n < 100) :
    natDigits n = [Nat.digitChar (n / 10), Nat.digitChar (n % 10)] := by
  obtain ⟨m, rfl⟩ : ∃ m, n = m + 1 := ⟨n - 1, by omega⟩
  unfold natDigits
  rw [natDigitsAux]
  rw [if_neg (by omega)]
  rw [natDigitsAux]
  rw [if_pos (by omega)]
  rfl

theorem pad2_spec {n : Nat} (h : n < 100) :
    ∃ c1 c2, pad2 n = [c1, c2] ∧ c1.isDigit = true ∧ c2.isDigit = true ∧
      10 * digitVal c1 + digitVal c2 = n := by
  unfold pad2
  split
  · rename_i h10
    refine ⟨'0', Nat.digitChar n, ?_, by decide, digitChar_isDigit h10, ?_⟩
    · rw [natDigits_lt_ten h10]
    · rw [digitVal_digitChar h10]
      have h0 : digitVal '0' = 0 := by decide
      rw [h0]
      omega
  · rename_i h10
    push_neg at h10
    refine ⟨Nat.digitChar (n / 10), Nat.digitChar (n % 10), ?_,
      digitChar_isDigit (by omega), digitChar_isDigit (Nat.mod_lt _ (by norm_num)), ?_⟩
    · rw [natDigits_two h10 h]
    · rw [digitVal_digitChar (by omega), digitVal_digitChar (Nat.mod_lt _ (by norm_num))]
      omega

theorem pad3_spec {n : Nat} (h : n < 1000) :
    ∃ c1 c2 c3, pad3 n = [c1, c2, c3] ∧ c1.isDigit = true ∧ c2.isDigit = true ∧
      c3.isDigit = true ∧ 100 * digitVal c1 + 10 * digitVal c2 + digitVal c3 = n := by
  unfold pad3
  split
  · rename_i h10
    refine ⟨'0', '0', Nat.digitChar n, ?_, by decide, by decide, digitChar_isDigit h10, ?_⟩
    · rw [natDigits_lt_ten h10]
    · rw [digitVal_digitChar h10]
      have h0 : digitVal '0' = 0 := by decide
      rw [h0]
      omega
  · split
    · rename_i h10 h100
      push_neg at h10
      refine ⟨'0', Nat.digitChar (n / 10), Nat.digitChar (n % 10), ?_, by decide,
        digitChar_isDigit (by omega), digitChar_isDigit (Nat.mod_lt _ (by norm_num)), ?_⟩
      · rw [natDigits_two h10 h100]
      · rw [digitVal_digitChar (by omega), digitVal_digitChar (Nat.mod_lt _ (by norm_num))]
        have h0 : digitVal '0' = 0 := by decide
        rw [h0]
        omega
    · rename_i h10 h100
      push_neg at h10 h100
      obtain ⟨m, rfl⟩ : ∃ m, n = m + 1 := ⟨n - 1, by omega⟩
      refine ⟨Nat.digitChar ((m + 1) / 100), Nat.digitChar ((m + 1) / 10 % 10),
        Nat.digitChar ((m + 1) % 10), ?_, digitChar_isDigit (by omega),
        digitChar_isDigit (Nat.mod_lt _ (by norm_num)),
        digitChar_isDigit (Nat.mod_lt _ (by norm_num)), ?_⟩
      · unfold natDigits
        rw [natDigitsAux]
        rw [if_neg (by omega)]
        rw [natDigitsAux]
        rw [if_neg (by omega)]
        obtain ⟨k, hk⟩ : ∃ k, m = k + 1 := ⟨m - 1, by omega⟩
        rw [hk]
        rw [natDigitsAux]
        rw [if_pos (by omega)]
        have h1 : (k + 1 + 1) / 10 / 10 = (k + 1 + 1) / 100 := by omega
        rw [h1, ← hk]
        simp
      · rw [digitVal_digitChar (by omega),
          digitVal_digitChar (Nat.mod_lt _ (by norm_num)),
          digitVal_digitChar (Nat.mod_lt _ (by norm_num))]
        omega

theorem takeWhile_append_stop (p : Char → Bool) :
    ∀ (a : List Char) (b : Char) (t : List Char), (∀ c ∈ a, p c = true) → p b = false →
      (a ++ b :: t).takeWhile p = a ∧ (a ++ b :: t).dropWhile p = b :: t := by
  intro a
  induction a with
  | nil =>
    intro b t _ hb
    constructor
    · simp [List.takeWhile_cons, hb]
    · simp [List.dropWhile_cons, hb]
  | cons x a ih =>
    intro b t ha hb
    have hx : p x = true := ha x (by simp)
    have := ih b t (fun c hc => ha c (by simp [hc])) hb
    constructor
    · simp only [List.cons_append, List.takeWhile_cons, hx]
      simp [this.1]
    · simp only [List.cons_append, List.dropWhile_cons, hx]
      simp [this.2]

theorem pad2_length_two {n : Nat} (h : n < 100) : (pad2 n).length = 2 := by
  obtain ⟨c1, c2, he, _⟩ := pad2_spec h
  rw [he]
  rfl

theorem pad2_length_ge_two (n : Nat) : 2 ≤ (pad2 n).length := by
  unfold pad2
  split
  · rename_i h10
    rw [natDigits_lt_ten h10]
    simp
  · rename_i h10
    push_neg at h10
    obtain ⟨m, rfl⟩ : ∃ m, n = m + 1 := ⟨n - 1, by omega⟩
    unfold natDigits
    rw [natDigitsAux]
    rw [if_neg (by omega)]
    have hne := natDigitsAux_ne_nil (m + 1) ((m + 1) / 10)
    have hpos : 0 < (natDigitsAux (m + 1) ((m + 1) / 10)).length :=
      List.length_pos.mpr hne
    simp [List.length_append]
    omega

theorem pad2_all_digit (n : Nat) : ∀ c ∈ pad2 n, c.isDigit = true := by
  intro c hc
  unfold pad2 at hc
  split at hc
  · simp at hc
    rcases hc with hc | hc
    · subst hc; decide
    · exact natDigits_all_digit n c hc
  · exact natDigits_all_digit n c hc

theorem digitsToNat_pad2 (n : Nat) : digitsToNat (pad2 n) = n := by
  unfold pad2
  split
  · rw [digitsToNat_cons_zero, digitsToNat_natDigits]
  · rw [digitsToNat_natDigits]

/-- Evaluation of `reparseTime` on a well-formed timestamp string. -/
theorem reparseTime_concat (hl : List Char) (mm ss x : Nat)
    (hd : ∀ c ∈ hl, c.isDigit = true) (hlen : 2 ≤ hl.length)
    (hmm : mm < 100) (hss : ss < 100) (hx : x < 1000) :
    reparseTime (hl ++ ':' :: (pad2 mm ++ ':' :: (pad2 ss ++ ',' :: pad3 x)))
      = some (digitsToNat hl * 3600000 + mm * 60000 + ss * 1000 + x) := by
  obtain ⟨m1, m2, hm, hm1, hm2, hmv⟩ := pad2_spec hmm
  obtain ⟨s1, s2, hs, hs1, hs2, hsv⟩ := pad2_spec hss
  obtain ⟨x1, x2, x3, hxx, hx1, hx2, hx3, hxv⟩ := pad3_spec hx
  have hsplit := takeWhile_append_stop Char.isDigit hl ':'
    (pad2 mm ++ ':' :: (pad2 ss ++ ',' :: pad3 x)) hd (by decide)
  unfold reparseTime
  rw [hm, hs, hxx] at hsplit ⊢
  rw [hsplit.1, hsplit.2]
  simp only [List.cons_append, List.nil_append]
  simp only [List.all_cons, List.all_nil, hm1, hm2, hs1, hs2, hx1, hx2, hx3,
    Bool.and_true, Bool.true_and, and_true]
  rw [if_pos hlen]
  rw [hmv, hsv, hxv]

/-- Claim C7: for every integer millisecond input, the formatter's output
re-parses (as `HH:MM:SS,mmm` with two-digit minutes/seconds, a three-digit
millisecond field and an at-least-two-digit hour field) back to the clamped
input value exactly, and every negative input formats like 0. -/
theorem claim_C7_srt_time_roundtrip (ms : Int) :
    reparseTime (srt_time ms) = some ms.toNat ∧
      (ms < 0 → srt_time ms = srt_time 0) := by
  constructor
  · unfold srt_time
    have h1 := reparseTime_concat (pad2 (ms.toNat / 3600000))
      (ms.toNat % 3600000 / 60000) (ms.toNat % 60000 / 1000) (ms.toNat % 1000)
      (pad2_all_digit _)
      (pad2_length_ge_two _)
      (by omega) (by omega) (by omega)
    simp only [List.append_assoc, List.cons_append] at h1 ⊢
    rw [h1]
    congr 1
    rw [digitsToNat_pad2]
    omega
  · intro hneg
    unfold srt_time
    have : ms.toNat = (0 : Int).toNat := by omega
    rw [this]

/-- Witness for C7: the formatter round-trips at 3661001 ms and clamps −7. -/
theorem claim_C7_witness :
    reparseTime (srt_time 3661001) = some (Int.toNat 3661001) ∧
      ((-7 : Int) < 0 → srt_time (-7) = srt_time 0) :=
  ⟨(claim_C7_srt_time_roundtrip 3661001).1, (claim_C7_srt_time_roundtrip (-7)).2⟩

/-! ### The correction merger (claims C3 and C10) -/

theorem correctionMapGet_eq_lookupLast (corrections : List Corr) (k : List Char) :
    correctionMapGet corrections k = lookupLast corrections k := by
  induction corrections using List.reverseRecOn with
  | nil => rfl
  | append_singleton l c ih =>
    unfold correctionMapGet lookupLast at *
    rw [List.foldl_append, List.filter_append]
    by_cases hck : c.index = k
    · simp [hck, List.getLast?_concat]
    · simp [hck, ih]

/-- Claim C3: the correction merger returns one output per input cue, in
input order; a cue whose index is a key of the correction map gets that
record's `corrected` text (the last record wins when indices repeat, exactly
as repeated dictionary insertion does), every other cue gets its original
text; unmatched correction records are simply never looked up. -/
theorem claim_C3_apply_corrections_spec (subtitles : List SubEntry)
    (corrections : List Corr) :
    apply_corrections subtitles corrections =
      subtitles.map (fun e =>
        ⟨e.idx, e.ts, e.orig,
          match lookupLast corrections e.idx with
          | some c => c.corrected
          | none => e.orig⟩) ∧
    (apply_corrections subtitles corrections).length = subtitles.length := by
  constructor
  · unfold apply_corrections
    apply List.map_congr_left
    intro e _
    rw [correctionMapGet_eq_lookupLast]
    cases lookupLast corrections e.idx <;> rfl
  · simp [apply_corrections]

/-- Witness for C3 at concrete inputs: a matched cue is corrected, an
unmatched cue keeps its original, and a dangling record is ignored. -/
theorem claim_C3_witness :
    apply_corrections
        [⟨['1'], ['t'], ['o'], ['o']⟩, ⟨['2'], ['u'], ['p'], ['p']⟩]
        [⟨['1'], ['o'], ['f'], ['r']⟩, ⟨['9'], ['x'], ['y'], ['z']⟩] =
      [⟨['1'], ['t'], ['o'], ['f']⟩, ⟨['2'], ['u'], ['p'], ['p']⟩] := by
  have h := (claim_C3_apply_corrections_spec
    [⟨['1'], ['t'], ['o'], ['o']⟩, ⟨['2'], ['u'], ['p'], ['p']⟩]
    [⟨['1'], ['o'], ['f'], ['r']⟩, ⟨['9'], ['x'], ['y'], ['z']⟩]).1
  rw [h]
  rfl

/-- Claim C10 (frame property): the correction merger never alters a cue's
index, timestamp line or original text — only the corrected slot can differ
from the input. -/
theorem claim_C10_apply_corrections_frame (subtitles : List SubEntry)
    (corrections : List Corr) :
    (apply_corrections subtitles corrections).map (fun e => (e.idx, e.ts, e.orig)) =
      subtitles.map (fun e => (e.idx, e.ts, e.orig)) := by
  unfold apply_corrections
  rw [List.map_map]
  apply List.map_congr_left
  intro e _
  simp only [Function.comp]
  cases correctionMapGet corrections e.idx <;> rfl

/-- Witness for C10 at a concrete input. -/
theorem claim_C10_witness :
    (apply_corrections [⟨['3'], ['w'], ['q'], ['q']⟩] [⟨['3'], ['q'], ['z'], ['r']⟩]).map
        (fun e => (e.idx, e.ts, e.orig)) = [(['3'], ['w'], ['q'])] := by
  rw [claim_C10_apply_corrections_frame [⟨['3'], ['w'], ['q'], ['q']⟩]
    [⟨['3'], ['q'], ['z'], ['r']⟩]]
  rfl

/-! ### The missing-timestamp condition (claim C2) -/

/-- Characterisation of the missing-timestamp failure: `funasr_to_segments`
signals it exactly when the first result's `sentence_info` is absent/`None`
or empty — whether or not token-level `timestamp` data is present.  There is
no token-level fallback path in this builder. -/
theorem claim_C2_characterization (r0 : FunASRResult) (rest : List FunASRResult)
    (A : Int) :
    funasr_to_segments (r0 :: rest) A = .error .noSentenceInfo ↔
      (r0.sentence_info = none ∨ r0.sentence_info = some []) := by
  cases h : r0.sentence_info with
  | none => simp [funasr_to_segments, h]
  | some l =>
    cases l with
    | nil => simp [funasr_to_segments, h]
    | cons s ss => simp [funasr_to_segments, h]

/-- Counterexample for C2 as stated: a result that lacks `sentence_info` but
does carry token-level timestamps still fails with the missing-timestamp
error — the fallback path the claim describes does not exist in
`funasr_to_segments`. -/
theorem claim_C2_counterexample :
    funasr_to_segments [⟨none, some ['h', 'i'], some [(0, 100)]⟩] 1000 =
      .error .noSentenceInfo := rfl

/-- Witness for C2 at a concrete input: an empty `sentence_info` list fails. -/
theorem claim_C2_witness :
    funasr_to_segments [⟨some [], none, none⟩] 0 = .error .noSentenceInfo :=
  (claim_C2_characterization ⟨some [], none, none⟩ [] 0).mpr (Or.inr rfl)

/-! ### The proofreading degrade path (claim C6) -/

theorem apply_corrections_nil (subtitles : List SubEntry) :
    apply_corrections subtitles [] =
      subtitles.map fun e => ⟨e.idx, e.ts, e.orig, e.orig⟩ := rfl

/-- Amended C6: when the collaborator's response text fails JSON decoding,
`optimize_srt` degrades to zero corrections with the summary `解析失败` and
still produces both output files — the optimized subtitle content carries
every cue with `corrected = original`. -/
theorem claim_C6_decode_failure_degrades (content inName outName now : List Char) :
    optimize_srt_core content inName outName now none =
      .ok (write_optimized_srt ((parse_srt content).map fun e => ⟨e.idx, e.ts, e.orig, e.orig⟩),
        write_report_content inName outName
          ((parse_srt content).map fun e => ⟨e.idx, e.ts, e.orig, e.orig⟩)
          [] "解析失败".toList now) := rfl

/-- Counterexample for C6 as stated: a response that decodes to valid JSON of
the wrong shape (a list, not an object) is "a response that fails to parse as
the expected structure", yet the flow raises `AttributeError` and aborts the
file instead of degrading and writing the outputs. -/
theorem claim_C6_counterexample :
    optimize_srt_core "1\n00:00:00,000 --> 00:00:01,000\nhi".toList
        "a.srt".toList "b.srt".toList "NOW".toList (some (.arr [])) =
      .error .attributeError := rfl

/-- Witness for C6's amended statement at concrete inputs. -/
theorem claim_C6_witness :
    optimize_srt_core "1\n00:00:00,000 --> 00:00:01,000\nhi".toList
        "in.srt".toList "out.srt".toList "NOW".toList none =
      .ok (write_optimized_srt ((parse_srt "1\n00:00:00,000 --> 00:00:01,000\nhi".toList).map
            fun e => ⟨e.idx, e.ts, e.orig, e.orig⟩),
        write_report_content "in.srt".toList "out.srt".toList
          ((parse_srt "1\n00:00:00,000 --> 00:00:01,000\nhi".toList).map
            fun e => ⟨e.idx, e.ts, e.orig, e.orig⟩)
          [] "解析失败".toList "NOW".toList) :=
  claim_C6_decode_failure_degrades _ _ _ _

/-! ### Character classes -/

theorem isDigit_not_space {c : Char} (h : c.isDigit = true) : pyIsSpace c = false := by
  unfold pyIsSpace
  by_contra hns
  rw [Bool.not_eq_false] at hns
  simp only [Bool.or_eq_true, decide_eq_true_eq] at hns
  rcases hns with ((((rfl | rfl) | rfl) | rfl) | rfl) | rfl <;>
    exact absurd h (by decide)

theorem isDigit_ne_newline {c : Char} (h : c.isDigit = true) : c ≠ '\n' := by
  rintro rfl
  exact absurd h (by decide)

theorem not_space_ne_newline {c : Char} (h : pyIsSpace c = false) : c ≠ '\n' := by
  rintro rfl
  exact absurd h (by decide)

/-! ### Blank-line freedom (`noNNb`) -/

theorem noNNb_nil : noNNb [] = true := rfl

theorem noNNb_singleton (c : Char) : noNNb [c] = true := rfl

theorem noNNb_cons_cons {c1 c2 : Char} {rest : List Char} :
    noNNb (c1 :: c2 :: rest) = true ↔
      ¬(c1 = '\n' ∧ c2 = '\n') ∧ noNNb (c2 :: rest) = true := by
  simp [noNNb]
  tauto

theorem noNNb_tail {c : Char} {cs : List Char} (h : noNNb (c :: cs) = true) :
    noNNb cs = true := by
  cases cs with
  | nil => rfl
  | cons c2 rest => exact (noNNb_cons_cons.mp h).2

theorem noNNb_head_pair {cs : List Char} (h : noNNb ('\n' :: cs) = true) :
    cs.head? ≠ some '\n' := by
  cases cs with
  | nil => simp
  | cons c2 rest =>
    have h1 := (noNNb_cons_cons.mp h).1
    simp only [List.head?_cons, Option.some_inj, Ne]
    intro h2
    exact h1 ⟨rfl, h2⟩

theorem noNNb_of_no_newline : ∀ l : List Char, (∀ c ∈ l, c ≠ '\n') → noNNb l = true := by
  intro l
  induction l with
  | nil => intro _; rfl
  | cons c cs ih =>
    intro h
    cases cs with
    | nil => rfl
    | cons c2 rest =>
      rw [noNNb_cons_cons]
      exact ⟨fun hc => h c (by simp) hc.1,
        ih (fun x hx => h x (by simp [hx]))⟩

theorem noNNb_append : ∀ (a b : List Char), noNNb a = true → noNNb b = true →
    (∀ x ∈ a.getLast?, ∀ y ∈ b.head?, ¬(x = '\n' ∧ y = '\n')) →
    noNNb (a ++ b) = true := by
  intro a
  induction a with
  | nil => intro b _ hb _; simpa using hb
  | cons c cs ih =>
    intro b ha hb hj
    cases cs with
    | nil =>
      cases b with
      | nil => rfl
      | cons d bs =>
        rw [List.singleton_append, noNNb_cons_cons]
        exact ⟨hj c (by simp) d (by simp), hb⟩
    | cons c2 cs' =>
      rw [List.cons_append, List.cons_append, noNNb_cons_cons]
      rw [← List.cons_append]
      refine ⟨(noNNb_cons_cons.mp ha).1, ih b (noNNb_tail ha) hb ?_⟩
      intro x hx y hy
      exact hj x (by rw [List.getLast?_cons_cons]; exact hx) y hy

/-! ### Line joining and splitting -/

theorem joinNL_cons_ne (a : List Char) {l : List (List Char)} (h : l ≠ []) :
    joinNL (a :: l) = a ++ '\n' :: joinNL l := by
  cases l with
  | nil => exact absurd rfl h
  | cons x xs => rfl

theorem splitNL_ne_nil : ∀ l : List Char, splitNL l ≠ [] := by
  intro l
  induction l with
  | nil => simp [splitNL]
  | cons c cs ih =>
    rw [splitNL]
    split
    · simp
    · cases hcx : splitNL cs with
      | nil => simp
      | cons r rs => simp

theorem splitNL_no_newline : ∀ a : List Char, (∀ c ∈ a, c ≠ '\n') →
    splitNL a = [a] := by
  intro a
  induction a with
  | nil => intro _; rfl
  | cons c cs ih =>
    intro h
    rw [splitNL]
    rw [if_neg (h c (by simp))]
    rw [ih (fun x hx => h x (by simp [hx]))]

theorem splitNL_append : ∀ (a r : List Char), (∀ c ∈ a, c ≠ '\n') →
    splitNL (a ++ '\n' :: r) = a :: splitNL r := by
  intro a
  induction a with
  | nil =>
    intro r _
    rw [List.nil_append, splitNL, if_pos rfl]
  | cons c cs ih =>
    intro r h
    rw [List.cons_append, splitNL]
    rw [if_neg (h c (by simp))]
    rw [ih r (fun x hx => h x (by simp [hx]))]

theorem joinNL_splitNL : ∀ l : List Char, joinNL (splitNL l) = l := by
  intro l
  induction l with
  | nil => rfl
  | cons c cs ih =>
    rw [splitNL]
    by_cases hc : c = '\n'
    · rw [if_pos hc]
      rw [joinNL_cons_ne [] (splitNL_ne_nil cs)]
      rw [ih, hc]
      rfl
    · rw [if_neg hc]
      cases hcx : splitNL cs with
      | nil => exact absurd hcx (splitNL_ne_nil cs)
      | cons r rs =>
        rw [hcx] at ih
        cases rs with
        | nil =>
          simp only [joinNL] at ih ⊢
          rw [ih]
        | cons r2 rs' =>
          rw [joinNL_cons_ne (c :: r) (by simp), joinNL_cons_ne r (by simp)] at *
          rw [List.cons_append, ih]

/-! ### The blank-line block splitter -/

theorem splitGo_skip_eq (r : List Char) (h : r.head? ≠ some '\n') :
    splitGo .skipping [] r = splitGo .normal [] r := by
  cases r with
  | nil => rfl
  | cons c cs =>
    have hc : c ≠ '\n' := by simpa using h
    simp only [splitGo]
    rw [if_neg hc, if_neg hc]

/-- A block with no blank line inside is consumed whole by the scanner. -/
theorem splitGo_complete : ∀ (b acc : List Char),
    (noNNb b = true → splitGo .normal acc b = [acc.reverse ++ b]) ∧
    (b.head? ≠ some '\n' → noNNb b = true →
      splitGo .pending acc b = [acc.reverse ++ '\n' :: b]) := by
  intro b
  induction b with
  | nil =>
    intro acc
    constructor
    · intro _
      simp [splitGo]
    · intro _ _
      simp [splitGo]
  | cons c cs ih =>
    intro acc
    constructor
    · intro hnn
      by_cases hc : c = '\n'
      · subst hc
        show splitGo SplitMode.pending acc cs = [acc.reverse ++ '\n' :: cs]
        exact (ih acc).2 (noNNb_head_pair hnn) (noNNb_tail hnn)
      · show (if c = '\n' then splitGo SplitMode.pending acc cs
            else splitGo SplitMode.normal (c :: acc) cs) = [acc.reverse ++ c :: cs]
        rw [if_neg hc]
        rw [(ih (c :: acc)).1 (noNNb_tail hnn)]
        simp
    · intro hh hnn
      have hc : c ≠ '\n' := by simpa using hh
      show (if c = '\n' then acc.reverse :: splitGo SplitMode.skipping [] cs
            else splitGo SplitMode.normal (c :: '\n' :: acc) cs)
          = [acc.reverse ++ '\n' :: c :: cs]
      rw [if_neg hc]
      rw [(ih (c :: '\n' :: acc)).1 (noNNb_tail hnn)]
      simp

/-- A well-formed block followed by a two-newline separator is emitted and
the scanner restarts on the remainder. -/
theorem splitGo_sep : ∀ (b acc r : List Char), r.head? ≠ some '\n' →
    ((noNNb b = true → (∀ x ∈ b.getLast?, x ≠ '\n') →
      splitGo .normal acc (b ++ '\n' :: '\n' :: r)
        = (acc.reverse ++ b) :: splitGo .normal [] r) ∧
     (b ≠ [] → b.head? ≠ some '\n' → noNNb b = true → (∀ x ∈ b.getLast?, x ≠ '\n') →
      splitGo .pending acc (b ++ '\n' :: '\n' :: r)
        = (acc.reverse ++ '\n' :: b) :: splitGo .normal [] r)) := by
  intro b
  induction b with
  | nil =>
    intro acc r hr
    constructor
    · intro _ _
      show acc.reverse :: splitGo SplitMode.skipping [] r
          = (acc.reverse ++ ([] : List Char)) :: splitGo SplitMode.normal [] r
      rw [splitGo_skip_eq r hr]
      simp
    · intro hne _ _ _
      exact absurd rfl hne
  | cons c cs ih =>
    intro acc r hr
    have hlast_cs : (∀ x ∈ (c :: cs).getLast?, x ≠ '\n') →
        ∀ x ∈ cs.getLast?, x ≠ '\n' := by
      intro hlast x hx
      apply hlast
      cases cs with
      | nil => simp at hx
      | cons d ds => rw [List.getLast?_cons_cons]; exact hx
    constructor
    · intro hnn hlast
      by_cases hc : c = '\n'
      · subst hc
        cases cs with
        | nil => exact absurd rfl (hlast '\n' (by simp))
        | cons c2 cs' =>
          show splitGo SplitMode.pending acc ((c2 :: cs') ++ '\n' :: '\n' :: r)
              = (acc.reverse ++ '\n' :: c2 :: cs') :: splitGo SplitMode.normal [] r
          exact (ih acc r hr).2 (by simp) (noNNb_head_pair hnn) (noNNb_tail hnn)
            (hlast_cs hlast)
      · show (if c = '\n' then splitGo SplitMode.pending acc (cs ++ '\n' :: '\n' :: r)
            else splitGo SplitMode.normal (c :: acc) (cs ++ '\n' :: '\n' :: r))
            = (acc.reverse ++ c :: cs) :: splitGo SplitMode.normal [] r
        rw [if_neg hc]
        rw [(ih (c :: acc) r hr).1 (noNNb_tail hnn) (hlast_cs hlast)]
        simp
    · intro _ hh hnn hlast
      have hc : c ≠ '\n' := by simpa using hh
      show (if c = '\n' then
            acc.reverse :: splitGo SplitMode.skipping [] (cs ++ '\n' :: '\n' :: r)
          else splitGo SplitMode.normal (c :: '\n' :: acc) (cs ++ '\n' :: '\n' :: r))
          = (acc.reverse ++ '\n' :: c :: cs) :: splitGo SplitMode.normal [] r
      rw [if_neg hc]
      rw [(ih (c :: '\n' :: acc) r hr).1 (noNNb_tail hnn) (hlast_cs hlast)]
      simp

theorem interNN_head (b : List Char) (bs : List (List Char)) (hb : b ≠ []) :
    (interNN (b :: bs)).head? = b.head? := by
  cases bs with
  | nil => rfl
  | cons b2 bs' =>
    show (b ++ '\n' :: '\n' :: interNN (b2 :: bs')).head? = b.head?
    cases b with
    | nil => exact absurd rfl hb
    | cons c cs => simp

/-- Splitting at blank-line runs undoes joining well-formed blocks with
single blank separator lines. -/
theorem splitNN_interNN : ∀ blocks : List (List Char), blocks ≠ [] →
    (∀ b ∈ blocks, b ≠ [] ∧ noNNb b = true ∧ b.head? ≠ some '\n' ∧
      (∀ x ∈ b.getLast?, x ≠ '\n')) →
    splitNN (interNN blocks) = blocks := by
  intro blocks
  induction blocks with
  | nil => intro h; exact absurd rfl h
  | cons b bs ih =>
    intro _ hwf
    cases bs with
    | nil =>
      show splitGo .normal [] b = [b]
      rw [(splitGo_complete b []).1 (hwf b (by simp)).2.1]
      simp
    | cons b2 bs' =>
      obtain ⟨hbne, hbnn, hbh, hbl⟩ := hwf b (by simp)
      have hrhead : (interNN (b2 :: bs')).head? ≠ some '\n' := by
        rw [interNN_head b2 bs' (hwf b2 (by simp)).1]
        have h2 := (hwf b2 (by simp)).2.2.1
        exact h2
      show splitGo .normal [] (b ++ '\n' :: '\n' :: interNN (b2 :: bs')) = b :: b2 :: bs'
      rw [(splitGo_sep b [] _ hrhead).1 hbnn hbl]
      simp only [List.reverse_nil, List.nil_append]
      congr 1
      exact ih (by simp) (fun x hx => hwf x (by simp [hx]))

/-! ### Heads, lasts and stripping -/

theorem head?_append_of_ne_nil {l : List Char} (x : List Char) (h : l ≠ []) :
    (l ++ x).head? = l.head? := by
  cases l with
  | nil => exact absurd rfl h
  | cons c cs => simp

theorem getLast?_append_of_ne_nil (l : List Char) {x : List Char} (h : x ≠ []) :
    (l ++ x).getLast? = x.getLast? := by
  rw [List.getLast?_append]
  cases hx : x.getLast? with
  | none =>
    cases x with
    | nil => exact absurd rfl h
    | cons c cs =>
      exact absurd hx (by simp [List.getLast?_eq_getLast])
  | some c => rfl

theorem mem_of_getLast?_eq : ∀ (l : List Char) (c : Char), l.getLast? = some c → c ∈ l := by
  intro l
  induction l with
  | nil => intro c h; simp at h
  | cons a t ih =>
    intro c h
    cases t with
    | nil =>
      simp only [List.getLast?_singleton, Option.some_inj] at h
      simp [h]
    | cons b t' =>
      rw [List.getLast?_cons_cons] at h
      exact List.mem_cons_of_mem a (ih c h)

theorem head?_prop_of_all {l : List Char} {p : Char → Prop}
    (h : ∀ c ∈ l, p c) : ∀ c ∈ l.head?, p c := by
  cases l with
  | nil => simp
  | cons a t =>
    intro c hc
    rw [List.head?_cons, Option.mem_def] at hc
    injection hc with hc
    subst hc
    exact h a (by simp)

theorem getLast?_prop_of_all {l : List Char} {p : Char → Prop}
    (h : ∀ c ∈ l, p c) : ∀ c ∈ l.getLast?, p c := by
  intro c hc
  exact h c (mem_of_getLast?_eq l c hc)

theorem append_ne_nil_left {a b : List Char} (h : a ≠ []) : a ++ b ≠ [] := by
  intro he
  exact h (List.append_eq_nil.mp he).1

theorem getLast?_cons_of_ne_nil (c : Char) {x : List Char} (h : x ≠ []) :
    (c :: x).getLast? = x.getLast? := by
  cases x with
  | nil => exact absurd rfl h
  | cons d ds => exact List.getLast?_cons_cons

theorem getLast?_append_cons {a r : List Char} (c : Char) (h : r ≠ []) :
    (a ++ c :: r).getLast? = r.getLast? := by
  rw [getLast?_append_of_ne_nil a (show c :: r ≠ [] by simp)]
  exact getLast?_cons_of_ne_nil c h

theorem dropWhile_of_head_false {p : Char → Bool} {l : List Char}
    (h : ∀ c ∈ l.head?, p c = false) : l.dropWhile p = l := by
  cases l with
  | nil => rfl
  | cons c cs =>
    rw [List.dropWhile_cons, if_neg]
    rw [h c (by simp)]
    simp

theorem pyStrip_noop {l : List Char}
    (hh : ∀ c ∈ l.head?, pyIsSpace c = false)
    (hl : ∀ c ∈ l.getLast?, pyIsSpace c = false) : pyStrip l = l := by
  unfold pyStrip lstripL rstripL
  rw [dropWhile_of_head_false hh]
  rw [dropWhile_of_head_false (by rw [List.head?_reverse]; exact hl)]
  exact List.reverse_reverse l

theorem pyStrip_concat_nl {l : List Char} (hne : l ≠ [])
    (hh : ∀ c ∈ l.head?, pyIsSpace c = false)
    (hl : ∀ c ∈ l.getLast?, pyIsSpace c = false) : pyStrip (l ++ ['\n']) = l := by
  unfold pyStrip lstripL rstripL
  have h1 : ∀ c ∈ (l ++ ['\n']).head?, pyIsSpace c = false := by
    rw [head?_append_of_ne_nil _ hne]
    exact hh
  rw [dropWhile_of_head_false h1]
  rw [List.reverse_append]
  have h2 : (['\n'] : List Char).reverse ++ l.reverse = '\n' :: l.reverse := rfl
  rw [h2]
  rw [List.dropWhile_cons, if_pos (by decide)]
  rw [dropWhile_of_head_false (by rw [List.head?_reverse]; exact hl)]
  exact List.reverse_reverse l

/-! ### Character content of the emitted lines -/

theorem pad3_all_digit (n : Nat) : ∀ c ∈ pad3 n, c.isDigit = true := by
  intro c hc
  unfold pad3 at hc
  split at hc
  · simp at hc
    rcases hc with hc | hc
    · subst hc; decide
    · exact natDigits_all_digit n c hc
  · split at hc
    · simp at hc
      rcases hc with hc | hc
      · subst hc; decide
      · exact natDigits_all_digit n c hc
    · exact natDigits_all_digit n c hc

theorem natDigits_ne_nil (n : Nat) : natDigits n ≠ [] := natDigitsAux_ne_nil _ _

theorem pad2_ne_nil (n : Nat) : pad2 n ≠ [] := by
  unfold pad2
  split
  · simp
  · exact natDigits_ne_nil n

theorem pad3_ne_nil (n : Nat) : pad3 n ≠ [] := by
  unfold pad3
  split
  · simp
  · split
    · simp
    · exact natDigits_ne_nil n

/-- `srt_time` with its `let` unfolded. -/
theorem srt_time_eq (ms : Int) :
    srt_time ms = pad2 (ms.toNat / 3600000) ++ ':' :: pad2 (ms.toNat % 3600000 / 60000)
      ++ ':' :: pad2 (ms.toNat % 60000 / 1000) ++ ',' :: pad3 (ms.toNat % 1000) := rfl

theorem srt_time_chars (ms : Int) :
    ∀ c ∈ srt_time ms, c.isDigit = true ∨ c = ':' ∨ c = ',' := by
  intro c hc
  rw [srt_time_eq] at hc
  simp only [List.mem_append, List.mem_cons, or_assoc] at hc
  rcases hc with hc | hc | hc | hc | hc | hc | hc
  · exact Or.inl (pad2_all_digit _ c hc)
  · exact Or.inr (Or.inl hc)
  · exact Or.inl (pad2_all_digit _ c hc)
  · exact Or.inr (Or.inl hc)
  · exact Or.inl (pad2_all_digit _ c hc)
  · exact Or.inr (Or.inr hc)
  · exact Or.inl (pad3_all_digit _ c hc)

theorem srt_time_ne_nil (ms : Int) : srt_time ms ≠ [] := by
  rw [srt_time_eq]
  exact append_ne_nil_left (append_ne_nil_left (append_ne_nil_left (pad2_ne_nil _)))

theorem srt_time_ne_newline (ms : Int) : ∀ c ∈ srt_time ms, c ≠ '\n' := by
  intro c hc
  rcases srt_time_chars ms c hc with h | h | h
  · exact isDigit_ne_newline h
  · subst h; decide
  · subst h; decide

theorem srt_time_head_digit (ms : Int) :
    ∀ c ∈ (srt_time ms).head?, c.isDigit = true := by
  rw [srt_time_eq]
  rw [head?_append_of_ne_nil _
    (append_ne_nil_left (append_ne_nil_left (pad2_ne_nil _)))]
  rw [head?_append_of_ne_nil _ (append_ne_nil_left (pad2_ne_nil _))]
  rw [head?_append_of_ne_nil _ (pad2_ne_nil _)]
  exact head?_prop_of_all (fun c hc => pad2_all_digit _ c hc)

theorem srt_time_last_digit (ms : Int) :
    ∀ c ∈ (srt_time ms).getLast?, c.isDigit = true := by
  rw [srt_time_eq]
  rw [getLast?_append_cons ',' (pad3_ne_nil _)]
  exact getLast?_prop_of_all (fun c hc => pad3_all_digit _ c hc)

theorem timeRange_ne_nil (s : Segment) : timeRange s ≠ [] := by
  unfold timeRange
  exact append_ne_nil_left (srt_time_ne_nil _)

theorem timeRange_ne_newline (s : Segment) : ∀ c ∈ timeRange s, c ≠ '\n' := by
  intro c hc
  unfold timeRange at hc
  simp only [List.mem_append, List.mem_cons, or_assoc] at hc
  rcases hc with hc | hc | hc | hc | hc | hc | hc
  · exact srt_time_ne_newline _ c hc
  · subst hc; decide
  · subst hc; decide
  · subst hc; decide
  · subst hc; decide
  · subst hc; decide
  · exact srt_time_ne_newline _ c hc

theorem timeRange_head_digit (s : Segment) :
    ∀ c ∈ (timeRange s).head?, c.isDigit = true := by
  unfold timeRange
  rw [head?_append_of_ne_nil _ (srt_time_ne_nil _)]
  exact srt_time_head_digit _

theorem timeRange_last_digit (s : Segment) :
    ∀ c ∈ (timeRange s).getLast?, c.isDigit = true := by
  unfold timeRange
  rw [getLast?_append_cons ' ' (List.cons_ne_nil _ _)]
  rw [getLast?_cons_of_ne_nil '-' (List.cons_ne_nil _ _)]
  rw [getLast?_cons_of_ne_nil '-' (List.cons_ne_nil _ _)]
  rw [getLast?_cons_of_ne_nil '>' (List.cons_ne_nil _ _)]
  rw [getLast?_cons_of_ne_nil ' ' (srt_time_ne_nil _)]
  exact srt_time_last_digit _

theorem natDigits_head_digit (n : Nat) :
    ∀ c ∈ (natDigits n).head?, c.isDigit = true :=
  head?_prop_of_all (fun c hc => natDigits_all_digit n c hc)

theorem natDigits_last_digit (n : Nat) :
    ∀ c ∈ (natDigits n).getLast?, c.isDigit = true :=
  getLast?_prop_of_all (fun c hc => natDigits_all_digit n c hc)

/-! ### Extraction from the cue-text invariants -/

theorem textOKb_ne_nil {t : List Char} (h : textOKb t = true) : t ≠ [] := by
  unfold textOKb at h
  simp only [Bool.and_eq_true, Bool.not_eq_true'] at h
  intro he
  subst he
  simp at h

theorem textOKb_noNN {t : List Char} (h : textOKb t = true) : noNNb t = true := by
  unfold textOKb at h
  simp only [Bool.and_eq_true] at h
  exact h.1.1.2

theorem textOKb_head {t : List Char} (h : textOKb t = true) :
    ∀ c ∈ t.head?, pyIsSpace c = false := by
  unfold textOKb at h
  simp only [Bool.and_eq_true] at h
  have h2 := h.1.2
  intro c hc
  cases ht : t.head? with
  | none => rw [ht] at hc; simp at hc
  | some d =>
    rw [ht] at hc h2
    simp only [Option.mem_def, Option.some_inj] at hc
    subst hc
    simp only [Option.all_some, Bool.not_eq_true'] at h2
    exact h2

theorem textOKb_last {t : List Char} (h : textOKb t = true) :
    ∀ c ∈ t.getLast?, pyIsSpace c = false := by
  unfold textOKb at h
  simp only [Bool.and_eq_true] at h
  have h2 := h.2
  intro c hc
  cases ht : t.getLast? with
  | none => rw [ht] at hc; simp at hc
  | some d =>
    rw [ht] at hc h2
    simp only [Option.mem_def, Option.some_inj] at hc
    subst hc
    simp only [Option.all_some, Bool.not_eq_true'] at h2
    exact h2

/-! ### Well-formedness of the emitted blocks -/

theorem blockOf_ne_nil (i : Nat) (s : Segment) : blockOf i s ≠ [] := by
  unfold blockOf
  cases hp : natDigits i with
  | nil => exact absurd hp (natDigits_ne_nil _)
  | cons c cs => simp

theorem blockOf_head_digit (i : Nat) (s : Segment) :
    ∀ c ∈ (blockOf i s).head?, c.isDigit = true := by
  unfold blockOf
  rw [head?_append_of_ne_nil _ (natDigits_ne_nil _)]
  exact natDigits_head_digit i

theorem blockOf_getLast (i : Nat) (s : Segment) (h : s.text ≠ []) :
    (blockOf i s).getLast? = s.text.getLast? := by
  unfold blockOf
  rw [getLast?_append_of_ne_nil _ (by simp)]
  show (['\n'] ++ (timeRange s ++ '\n' :: s.text)).getLast? = _
  rw [getLast?_append_of_ne_nil _ (by
    cases ht : timeRange s <;> simp)]
  rw [getLast?_append_of_ne_nil _ (by simp)]
  show (['\n'] ++ s.text).getLast? = _
  rw [getLast?_append_of_ne_nil _ h]

theorem blockOf_noNN (i : Nat) (s : Segment) (h : textOKb s.text = true) :
    noNNb (blockOf i s) = true := by
  have n1 : noNNb s.text = true := textOKb_noNN h
  have n2 : noNNb ('\n' :: s.text) = true := by
    cases ht : s.text with
    | nil => rfl
    | cons t0 ts =>
      rw [noNNb_cons_cons]
      refine ⟨?_, by rw [← ht]; exact n1⟩
      rintro ⟨-, rfl⟩
      have := textOKb_head h
      rw [ht] at this
      exact absurd (this '\n' (by simp)) (by decide)
  have n3 : noNNb (timeRange s ++ '\n' :: s.text) = true := by
    apply noNNb_append _ _ (noNNb_of_no_newline _ (timeRange_ne_newline s)) n2
    intro x hx y hy
    rintro ⟨rfl, -⟩
    exact absurd rfl (getLast?_prop_of_all (timeRange_ne_newline s) '\n' hx)
  have n4 : noNNb ('\n' :: (timeRange s ++ '\n' :: s.text)) = true := by
    have hj : ∀ x ∈ (['\n'] : List Char).getLast?,
        ∀ y ∈ (timeRange s ++ '\n' :: s.text).head?, ¬(x = '\n' ∧ y = '\n') := by
      intro x hx y hy
      rw [head?_append_of_ne_nil _ (timeRange_ne_nil s)] at hy
      have hyd := timeRange_head_digit s y hy
      rintro ⟨-, rfl⟩
      exact absurd hyd (by decide)
    have hstep := noNNb_append ['\n'] (timeRange s ++ '\n' :: s.text) rfl n3 hj
    simpa using hstep
  unfold blockOf
  apply noNNb_append _ _
    (noNNb_of_no_newline _ (fun c hc => isDigit_ne_newline (natDigits_all_digit i c hc)))
    n4
  intro x hx y hy
  rintro ⟨rfl, -⟩
  exact absurd (natDigits_last_digit i '\n' hx) (by decide)

/-! ### Decomposition of the written file into blocks -/

theorem writeLinesGo_ne_nil (i : Nat) (s : Segment) (r : List Segment) :
    writeLinesGo i (s :: r) ≠ [] := by
  simp [writeLinesGo]

theorem blocksGo_ne_nil (i : Nat) (s : Segment) (r : List Segment) :
    blocksGo i (s :: r) ≠ [] := by
  simp [blocksGo]

theorem interNN_cons_ne (b : List Char) {bs : List (List Char)} (h : bs ≠ []) :
    interNN (b :: bs) = b ++ '\n' :: '\n' :: interNN bs := by
  cases bs with
  | nil => exact absurd rfl h
  | cons b2 bs' => rfl

theorem write_decomp : ∀ (segs : List Segment) (i : Nat), segs ≠ [] →
    joinNL (writeLinesGo i segs) = interNN (blocksGo i segs) ++ ['\n'] := by
  intro segs
  induction segs with
  | nil => intro i h; exact absurd rfl h
  | cons s rest ih =>
    intro i _
    cases rest with
    | nil =>
      show joinNL [natDigits i, timeRange s, s.text, []] = blockOf i s ++ ['\n']
      rw [joinNL_cons_ne _ (List.cons_ne_nil _ _), joinNL_cons_ne _ (List.cons_ne_nil _ _),
        joinNL_cons_ne _ (List.cons_ne_nil _ _)]
      show natDigits i ++ '\n' :: (timeRange s ++ '\n' :: (s.text ++ '\n' :: joinNL [[]]))
          = blockOf i s ++ ['\n']
      unfold blockOf
      simp [List.append_assoc, joinNL]
    | cons s2 rest' =>
      show joinNL (natDigits i :: timeRange s :: s.text :: []
            :: writeLinesGo (i + 1) (s2 :: rest'))
          = interNN (blockOf i s :: blocksGo (i + 1) (s2 :: rest')) ++ ['\n']
      rw [joinNL_cons_ne _ (List.cons_ne_nil _ _), joinNL_cons_ne _ (List.cons_ne_nil _ _),
        joinNL_cons_ne _ (List.cons_ne_nil _ _),
        joinNL_cons_ne _ (writeLinesGo_ne_nil _ _ _)]
      rw [ih (i + 1) (by simp)]
      rw [interNN_cons_ne _ (blocksGo_ne_nil _ _ _)]
      unfold blockOf
      simp [List.append_assoc]

theorem blocksGo_wf : ∀ (segs : List Segment) (i : Nat),
    (∀ s ∈ segs, textOKb s.text = true) →
    ∀ b ∈ blocksGo i segs, b ≠ [] ∧ noNNb b = true ∧ b.head? ≠ some '\n' ∧
      (∀ x ∈ b.getLast?, pyIsSpace x = false) := by
  intro segs
  induction segs with
  | nil => intro i _ b hb; simp [blocksGo] at hb
  | cons s rest ih =>
    intro i h b hb
    have hb2 : b = blockOf i s ∨ b ∈ blocksGo (i + 1) rest := by
      simpa [blocksGo] using hb
    rcases hb2 with rfl | hb2
    · refine ⟨blockOf_ne_nil i s, blockOf_noNN i s (h s (by simp)), ?_, ?_⟩
      · intro hhead
        have hd := blockOf_head_digit i s '\n' (by rw [hhead]; rfl)
        exact absurd hd (by decide)
      · rw [blockOf_getLast i s (textOKb_ne_nil (h s (by simp)))]
        exact textOKb_last (h s (by simp))
    · exact ih (i + 1) (fun t ht => h t (by simp [ht])) b hb2

theorem interNN_ne_nil : ∀ blocks : List (List Char), blocks ≠ [] →
    (∀ b ∈ blocks, b ≠ []) → interNN blocks ≠ [] := by
  intro blocks h1 h2
  cases blocks with
  | nil => exact absurd rfl h1
  | cons b bs =>
    cases bs with
    | nil => exact h2 b (by simp)
    | cons b2 bs' =>
      show b ++ '\n' :: '\n' :: interNN (b2 :: bs') ≠ []
      exact append_ne_nil_left (h2 b (by simp))

theorem interNN_last_prop (P : Char → Prop) : ∀ blocks : List (List Char),
    (∀ b ∈ blocks, b ≠ []) → (∀ b ∈ blocks, ∀ c ∈ b.getLast?, P c) →
    ∀ c ∈ (interNN blocks).getLast?, P c := by
  intro blocks
  induction blocks with
  | nil => intro _ _ c hc; simp [interNN] at hc
  | cons b bs ih =>
    intro hne hP
    cases bs with
    | nil => exact hP b (by simp)
    | cons b2 bs' =>
      show ∀ c ∈ (b ++ '\n' :: '\n' :: interNN (b2 :: bs')).getLast?, P c
      rw [getLast?_append_cons '\n' (List.cons_ne_nil _ _)]
      rw [getLast?_cons_of_ne_nil '\n'
        (interNN_ne_nil (b2 :: bs') (by simp) (fun x hx => hne x (by simp [hx])))]
      exact ih (fun x hx => hne x (by simp [hx])) (fun x hx => hP x (by simp [hx]))

/-! ### Parsing one emitted block -/

theorem parseBlock_blockOf (i : Nat) (s : Segment) (h : textOKb s.text = true) :
    parseBlock (blockOf i s) = some ⟨natDigits i, timeRange s, s.text, s.text⟩ := by
  have hstrip : pyStrip (blockOf i s) = blockOf i s := by
    apply pyStrip_noop
    · intro c hc
      exact isDigit_not_space (blockOf_head_digit i s c hc)
    · rw [blockOf_getLast i s (textOKb_ne_nil h)]
      exact textOKb_last h
  have hsplit : splitNL (pyStrip (blockOf i s))
      = natDigits i :: timeRange s :: splitNL s.text := by
    rw [hstrip]
    show splitNL (natDigits i ++ '\n' :: (timeRange s ++ '\n' :: s.text)) = _
    rw [splitNL_append _ _ (fun c hc => isDigit_ne_newline (natDigits_all_digit i c hc))]
    rw [splitNL_append _ _ (timeRange_ne_newline s)]
  have hlen : 3 ≤ (natDigits i :: timeRange s :: splitNL s.text).length := by
    have hpos := List.length_pos.mpr (splitNL_ne_nil s.text)
    simp only [List.length_cons]
    omega
  unfold parseBlock
  rw [hsplit]
  rw [if_pos hlen]
  simp only [List.headI, List.drop]
  rw [joinNL_splitNL]
  rw [pyStrip_noop (fun c hc => isDigit_not_space (natDigits_head_digit i c hc))
    (fun c hc => isDigit_not_space (natDigits_last_digit i c hc))]
  rw [pyStrip_noop (fun c hc => isDigit_not_space (timeRange_head_digit s c hc))
    (fun c hc => isDigit_not_space (timeRange_last_digit s c hc))]
  rw [pyStrip_noop (textOKb_head h) (textOKb_last h)]

/-! ### The round trip (claims C4 and C5) -/

theorem filterMap_blocks : ∀ (segs : List Segment) (i : Nat),
    (∀ s ∈ segs, textOKb s.text = true) →
    (blocksGo i segs).filterMap parseBlock = expectedEntries i segs := by
  intro segs
  induction segs with
  | nil => intro i _; rfl
  | cons s rest ih =>
    intro i h
    show (blockOf i s :: blocksGo (i + 1) rest).filterMap parseBlock = _
    rw [List.filterMap_cons]
    rw [parseBlock_blockOf i s (h s (by simp))]
    show (⟨natDigits i, timeRange s, s.text, s.text⟩ : SubEntry)
        :: (blocksGo (i + 1) rest).filterMap parseBlock = _
    rw [ih (i + 1) (fun t ht => h t (by simp [ht]))]
    rfl

theorem parse_write_go (segs : List Segment) (i : Nat)
    (h : ∀ s ∈ segs, textOKb s.text = true) :
    parse_srt (joinNL (writeLinesGo i segs)) = expectedEntries i segs := by
  cases segs with
  | nil => rfl
  | cons s rest =>
    unfold parse_srt
    rw [write_decomp (s :: rest) i (by simp)]
    have hwf := blocksGo_wf (s :: rest) i h
    have hne : interNN (blocksGo i (s :: rest)) ≠ [] :=
      interNN_ne_nil _ (blocksGo_ne_nil i s rest) (fun b hb => (hwf b hb).1)
    have hh : ∀ c ∈ (interNN (blocksGo i (s :: rest))).head?, pyIsSpace c = false := by
      show ∀ c ∈ (interNN (blockOf i s :: blocksGo (i + 1) rest)).head?, pyIsSpace c = false
      rw [interNN_head _ _ (blockOf_ne_nil i s)]
      intro c hc
      exact isDigit_not_space (blockOf_head_digit i s c hc)
    have hl : ∀ c ∈ (interNN (blocksGo i (s :: rest))).getLast?, pyIsSpace c = false :=
      interNN_last_prop _ _ (fun b hb => (hwf b hb).1) (fun b hb => (hwf b hb).2.2.2)
    rw [pyStrip_concat_nl hne hh hl]
    rw [splitNN_interNN _ (blocksGo_ne_nil i s rest)
      (fun b hb => ⟨(hwf b hb).1, (hwf b hb).2.1, (hwf b hb).2.2.1,
        fun x hx => not_space_ne_newline ((hwf b hb).2.2.2 x hx)⟩)]
    exact filterMap_blocks (s :: rest) i h

theorem expectedEntries_map_pair : ∀ (segs : List Segment) (i : Nat),
    (expectedEntries i segs).map (fun e => (e.ts, e.orig)) =
      segs.map (fun s => (timeRange s, s.text)) := by
  intro segs
  induction segs with
  | nil => intro i; rfl
  | cons s rest ih =>
    intro i
    show (timeRange s, s.text)
        :: (expectedEntries (i + 1) rest).map (fun e => (e.ts, e.orig))
        = (timeRange s, s.text) :: rest.map (fun t => (timeRange t, t.text))
    rw [ih (i + 1)]

theorem expectedEntries_map_text : ∀ (segs : List Segment) (i : Nat),
    (expectedEntries i segs).map (fun e => e.orig) = segs.map (fun s => s.text) := by
  intro segs
  induction segs with
  | nil => intro i; rfl
  | cons s rest ih =>
    intro i
    show s.text :: (expectedEntries (i + 1) rest).map (fun e => e.orig)
        = s.text :: rest.map (fun t => t.text)
    rw [ih (i + 1)]

/-- Claim C4: parsing the Codec's written output reproduces exactly one entry
per cue, in order, with the same timestamp-range string and the same text,
provided every cue text satisfies the format's invariants (non-empty, no
blank line, no leading or trailing whitespace). -/
theorem claim_C4_write_parse_roundtrip (segs : List Segment)
    (h : ∀ s ∈ segs, textOKb s.text = true) :
    (parse_srt (write_srt segs)).map (fun e => (e.ts, e.orig)) =
      segs.map (fun s => (timeRange s, s.text)) := by
  unfold write_srt
  rw [parse_write_go segs 1 h]
  exact expectedEntries_map_pair segs 1

/-- Witness for C4 at a concrete input, including a multi-line text. -/
theorem claim_C4_witness :
    (parse_srt (write_srt [⟨0, 1000, ['h', 'i']⟩, ⟨1000, 2500, ['a', '\n', 'b']⟩])).map
        (fun e => (e.ts, e.orig)) =
      ([⟨0, 1000, ['h', 'i']⟩, ⟨1000, 2500, ['a', '\n', 'b']⟩] : List Segment).map
        (fun s => (timeRange s, s.text)) :=
  claim_C4_write_parse_roundtrip _ (by decide)

/-- Amended C5: `write_srt` drops nothing — every cue, the `start_ms = -1`
sentinel ones included, yields a block in the written blob (the sentinel
start is merely rendered as `00:00:00,000` by the formatter's clamp); the
silent drop of `start == -1` segments exists only in the archived v2
script's write loop. -/
theorem claim_C5_sentinel_not_dropped (segs : List Segment)
    (h : ∀ s ∈ segs, textOKb s.text = true) :
    (parse_srt (write_srt segs)).map (fun e => e.orig) =
      segs.map (fun s => s.text) := by
  unfold write_srt
  rw [parse_write_go segs 1 h]
  exact expectedEntries_map_text segs 1

/-- Counterexample for C5 as stated: a single cue with the `start_ms = -1`
sentinel is claimed to leave no block in the written blob, yet the blob is
non-empty and parses back to that very cue. -/
theorem claim_C5_counterexample :
    write_srt [⟨-1, 500, ['a']⟩] ≠ [] ∧
      (parse_srt (write_srt [⟨-1, 500, ['a']⟩])).map (fun e => e.orig) = [['a']] := by
  constructor
  · decide
  · decide

/-- Witness for C5's amended statement at a concrete sentinel cue. -/
theorem claim_C5_witness :
    (parse_srt (write_srt [⟨-1, 700, ['x']⟩])).map (fun e => e.orig) =
      ([⟨-1, 700, ['x']⟩] : List Segment).map (fun s => s.text) :=
  claim_C5_sentinel_not_dropped _ (by decide)


/-! ### Segment Builder invariants (claims C1 and C8) -/

theorem collectSegs_end_le (A : Int) (l : List SentEntry) :
    ∀ s ∈ collectSegs A l, s.end_ms ≤ A := by
  intro s hs
  unfold collectSegs at hs
  rw [List.mem_filterMap] at hs
  obtain ⟨e, _, he⟩ := hs
  cases e with
  | other => simp at he
  | dict tx st ed =>
    simp only at he
    split at he
    · simp at he
    · simp only [Option.some_inj] at he
      subst he
      simp only
      split <;> omega

theorem collectSegs_start_nonneg (A : Int) (l : List SentEntry) :
    ∀ s ∈ collectSegs A l, 0 ≤ s.start_ms := by
  intro s hs
  unfold collectSegs at hs
  rw [List.mem_filterMap] at hs
  obtain ⟨e, _, he⟩ := hs
  cases e with
  | other => simp at he
  | dict tx st ed =>
    simp only at he
    split at he
    · simp at he
    · simp only [Option.some_inj] at he
      subst he
      simp only
      split <;> omega

/-- Full specification of the monotonicity sweep: given segments whose ends
are bounded by the media duration and whose starts are non-decreasing, the
sweep keeps ends bounded, keeps starts non-decreasing, makes adjacent cues
non-overlapping, and its first output's start is at least `e` and at least
the first input's start. -/
theorem sweepGo_spec (A : Int) :
    ∀ (l : List Segment) (e : Int),
      (∀ t ∈ l, t.end_ms ≤ A) →
      l.Chain' (fun a b => a.start_ms ≤ b.start_ms) →
      (e ≤ A ∨ ∀ t ∈ l, e ≤ t.start_ms) →
      (∀ t ∈ sweepGo A e l, t.end_ms ≤ A) ∧
      (sweepGo A e l).Chain' (fun a b => a.start_ms ≤ b.start_ms) ∧
      (sweepGo A e l).Chain' (fun a b => a.end_ms ≤ b.start_ms) ∧
      (∀ x ∈ (sweepGo A e l).head?,
        e ≤ x.start_ms ∧ ∀ z ∈ l.head?, z.start_ms ≤ x.start_ms) := by
  intro l
  induction l with
  | nil =>
    intro e _ _ _
    refine ⟨?_, ?_, ?_, ?_⟩ <;> simp [sweepGo]
  | cons s rest ih =>
    intro e hend hchain he
    rw [sweepGo]
    set st := if s.start_ms < e then e else s.start_ms with hst
    set ed := if s.end_ms ≤ st then min (st + 400) A else s.end_ms with hed
    have hstart_le : s.start_ms ≤ st := by rw [hst]; split <;> omega
    have he_le : e ≤ st := by rw [hst]; split <;> omega
    have hedA : ed ≤ A := by
      rw [hed]
      split
      · exact min_le_right _ _
      · exact hend s (by simp)
    have hcases : st < ed ∨ ed = A := by
      rw [hed]
      split
      · rcases le_or_lt (st + 400) A with hle | hlt
        · left; rw [min_eq_left hle]; omega
        · right; rw [min_eq_right (by omega)]
      · left
        omega
    have hchain_rest : rest.Chain' (fun a b => a.start_ms ≤ b.start_ms) :=
      (List.chain'_cons'.mp hchain).2
    have hhead_rest : ∀ z ∈ rest.head?, s.start_ms ≤ z.start_ms :=
      (List.chain'_cons'.mp hchain).1
    have hend_rest : ∀ t ∈ rest, t.end_ms ≤ A := fun t ht => hend t (by simp [ht])
    obtain ⟨ih1, ih2, ih3, ih4⟩ := ih ed hend_rest hchain_rest (Or.inl hedA)
    refine ⟨?_, ?_, ?_, ?_⟩
    · intro t ht
      rcases List.mem_cons.mp ht with ht | ht
      · subst ht; exact hedA
      · exact ih1 t ht
    · rw [List.chain'_cons']
      refine ⟨?_, ih2⟩
      intro y hy
      obtain ⟨hy1, hy2⟩ := ih4 y hy
      rcases hcases with hlt | heq
      · simp only
        omega
      · have hsy : s.start_ms ≤ y.start_ms := by
          cases rest with
          | nil => simp [sweepGo] at hy
          | cons z zs =>
            have := hy2 z (by simp)
            have := hhead_rest z (by simp)
            omega
        have hey : e ≤ y.start_ms := by
          rcases he with heA | hall
          · omega
          · have := hall s (by simp)
            omega
        simp only
        rw [hst]
        split <;> omega
    · rw [List.chain'_cons']
      refine ⟨?_, ih3⟩
      intro y hy
      exact (ih4 y hy).1
    · intro x hx
      simp only [List.head?_cons, Option.mem_def, Option.some_inj] at hx
      subst hx
      exact ⟨he_le, by intro z hz; simp at hz; subst hz; exact hstart_le⟩

/-- Replacing the last element of a chain by one that every predecessor also
relates to preserves the chain. -/
theorem chain'_dropLast_concat {R : Segment → Segment → Prop} :
    ∀ (l : List Segment) (x y : Segment), l.getLast? = some x →
      (∀ z, R z x → R z y) → l.Chain' R → (l.dropLast ++ [y]).Chain' R := by
  intro l
  induction l with
  | nil => intro x y hx; simp at hx
  | cons a t ih =>
    intro x y hx hr hchain
    cases t with
    | nil =>
      simp only [List.getLast?_singleton, Option.some_inj] at hx
      simp
    | cons b t' =>
      rw [List.getLast?_cons_cons] at hx
      have hab : R a b := (List.chain'_cons.mp hchain).1
      have hrest : (b :: t').Chain' R := (List.chain'_cons.mp hchain).2
      have hih := ih x y hx hr hrest
      have hdl : (a :: b :: t').dropLast = a :: (b :: t').dropLast := rfl
      rw [hdl, List.cons_append, List.chain'_cons']
      refine ⟨?_, hih⟩
      intro w hw
      cases t' with
      | nil =>
        simp only [List.getLast?_singleton, Option.some_inj] at hx
        subst hx
        simp only [List.dropLast_single, List.nil_append, List.head?_cons,
          Option.mem_def, Option.some_inj] at hw
        subst hw
        exact hr a hab
      | cons c t'' =>
        have : (b :: c :: t'').dropLast = b :: (c :: t'').dropLast := rfl
        rw [this] at hw
        simp only [List.cons_append, List.head?_cons, Option.mem_def,
          Option.some_inj] at hw
        subst hw
        exact hab

theorem extendLast_cases (A : Int) (l : List Segment) (s : Segment)
    (hg : l.getLast? = some s) :
    extendLast A l = if A - s.end_ms ≥ 800 then
      l.dropLast ++ [⟨s.start_ms, A, s.text⟩] else l := by
  unfold extendLast
  rw [hg]

theorem extendLast_end_le (A : Int) (l : List Segment)
    (h : ∀ t ∈ l, t.end_ms ≤ A) : ∀ t ∈ extendLast A l, t.end_ms ≤ A := by
  cases hg : l.getLast? with
  | none => unfold extendLast; rw [hg]; exact h
  | some s =>
    rw [extendLast_cases A l s hg]
    by_cases hc : A - s.end_ms ≥ 800
    · rw [if_pos hc]
      intro t ht
      rcases List.mem_append.mp ht with ht | ht
      · exact h t ((List.dropLast_sublist l).subset ht)
      · simp at ht
        subst ht
        simp
    · rw [if_neg hc]
      exact h

theorem extendLast_chain_start (A : Int) (l : List Segment)
    (h : l.Chain' (fun a b => a.start_ms ≤ b.start_ms)) :
    (extendLast A l).Chain' (fun a b => a.start_ms ≤ b.start_ms) := by
  cases hg : l.getLast? with
  | none => unfold extendLast; rw [hg]; exact h
  | some s =>
    rw [extendLast_cases A l s hg]
    by_cases hc : A - s.end_ms ≥ 800
    · rw [if_pos hc]
      exact chain'_dropLast_concat l s ⟨s.start_ms, A, s.text⟩ hg (fun z hz => hz) h
    · rw [if_neg hc]
      exact h

theorem extendLast_chain_adjacent (A : Int) (l : List Segment)
    (h : l.Chain' (fun a b => a.end_ms ≤ b.start_ms)) :
    (extendLast A l).Chain' (fun a b => a.end_ms ≤ b.start_ms) := by
  cases hg : l.getLast? with
  | none => unfold extendLast; rw [hg]; exact h
  | some s =>
    rw [extendLast_cases A l s hg]
    by_cases hc : A - s.end_ms ≥ 800
    · rw [if_pos hc]
      exact chain'_dropLast_concat l s ⟨s.start_ms, A, s.text⟩ hg (fun z hz => hz) h
    · rw [if_neg hc]
      exact h

/-- Amended C1: every cue sequence the Segment Builder returns is sorted
ascending by start time, adjacent cues satisfy `next.start_ms ≥ prev.end_ms`,
and every `end_ms` is at most the media duration.  (The claim's remaining
conjunct `end_ms > start_ms` does not hold in general — see the
counterexample — so it is not part of the amended statement.) -/
theorem claim_C1_output_invariants (res : List FunASRResult) (A : Int)
    (out : List Segment) (h : funasr_to_segments res A = .ok out) :
    out.Chain' (fun a b => a.start_ms ≤ b.start_ms) ∧
    out.Chain' (fun a b => a.end_ms ≤ b.start_ms) ∧
    ∀ s ∈ out, s.end_ms ≤ A := by
  cases res with
  | nil => simp [funasr_to_segments] at h
  | cons r0 rest =>
    cases hsi : r0.sentence_info with
    | none => simp [funasr_to_segments, hsi] at h
    | some l =>
      cases l with
      | nil => simp [funasr_to_segments, hsi] at h
      | cons s ss =>
        simp only [funasr_to_segments, hsi, Except.ok.injEq] at h
        subst h
        set segs := collectSegs A (s :: ss) with hsegs
        set sorted := List.insertionSort leSeg segs with hsorted
        have hmem : ∀ t, t ∈ sorted ↔ t ∈ segs := fun t =>
          (List.perm_insertionSort leSeg segs).mem_iff
        have hend : ∀ t ∈ sorted, t.end_ms ≤ A := fun t ht =>
          collectSegs_end_le A (s :: ss) t ((hmem t).mp ht)
        have hchain : sorted.Chain' (fun a b => a.start_ms ≤ b.start_ms) := by
          have hsort := List.sorted_insertionSort leSeg segs
          exact (List.Pairwise.imp (fun hab => by
            unfold leSeg at hab; omega) hsort).chain'
        have hstart : ∀ t ∈ sorted, (0 : Int) ≤ t.start_ms := fun t ht =>
          collectSegs_start_nonneg A (s :: ss) t ((hmem t).mp ht)
        obtain ⟨h1, h2, h3, _⟩ := sweepGo_spec A sorted 0 hend hchain (Or.inr hstart)
        exact ⟨extendLast_chain_start A _ h2, extendLast_chain_adjacent A _ h3,
          extendLast_end_le A _ h1⟩

/-- Counterexample for C1 as stated: two overlapping sentences near the end
of the media make the sweep collapse the second cue to a zero-width cue
(`start_ms = end_ms = 1000`), violating `end_ms > start_ms`. -/
theorem claim_C1_counterexample :
    funasr_to_segments [⟨some [.dict ['a'] 0 1000, .dict ['b'] 500 900], none, none⟩]
        1000 = .ok [⟨0, 1000, ['a']⟩, ⟨1000, 1000, ['b']⟩] ∧
    ¬ ∀ s ∈ [(⟨0, 1000, ['a']⟩ : Segment), ⟨1000, 1000, ['b']⟩],
        s.start_ms < s.end_ms := by
  constructor
  · rfl
  · decide

/-- Witness for C1's amended statement at a concrete input. -/
theorem claim_C1_witness :
    ([(⟨0, 5000, ['h', 'i']⟩ : Segment)]).Chain' (fun a b => a.start_ms ≤ b.start_ms) ∧
    ([(⟨0, 5000, ['h', 'i']⟩ : Segment)]).Chain' (fun a b => a.end_ms ≤ b.start_ms) ∧
    ∀ s ∈ [(⟨0, 5000, ['h', 'i']⟩ : Segment)], s.end_ms ≤ (5000 : Int) :=
  claim_C1_output_invariants [⟨some [.dict ['h', 'i'] 0 1000], none, none⟩] 5000
    [⟨0, 5000, ['h', 'i']⟩] rfl

/-- Claim C8: the builder's last step extends the final cue's end to the
media duration exactly when the gap is at least 800 ms, leaves it unchanged
when the gap is smaller, and never touches any cue but the last. -/
theorem claim_C8_final_extension (r0 : FunASRResult) (rest : List FunASRResult)
    (A : Int) (ss : List SentEntry) (hsi : r0.sentence_info = some ss)
    (hne : ss ≠ []) :
    funasr_to_segments (r0 :: rest) A =
      .ok (extendLast A (sweepGo A 0 (List.insertionSort leSeg (collectSegs A ss)))) ∧
    ∀ (fixed : List Segment) (x : Segment), fixed.getLast? = some x →
      (A - x.end_ms ≥ 800 →
        extendLast A fixed = fixed.dropLast ++ [⟨x.start_ms, A, x.text⟩]) ∧
      (A - x.end_ms < 800 → extendLast A fixed = fixed) := by
  constructor
  · cases ss with
    | nil => exact absurd rfl hne
    | cons s ss' => simp [funasr_to_segments, hsi]
  · intro fixed x hg
    constructor
    · intro hcond
      rw [extendLast_cases A fixed x hg]
      rw [if_pos hcond]
    · intro hcond
      rw [extendLast_cases A fixed x hg]
      rw [if_neg (by omega)]

/-- Witness for C8 at a concrete input: a single sentence ending 4000 ms
before the media end is extended to the media duration. -/
theorem claim_C8_witness :
    funasr_to_segments [⟨some [.dict ['h', 'i'] 0 1000], none, none⟩] 5000 =
      .ok (extendLast 5000 (sweepGo 5000 0
        (List.insertionSort leSeg (collectSegs 5000 [.dict ['h', 'i'] 0 1000])))) ∧
    extendLast 5000 [⟨0, 1000, ['h', 'i']⟩] = [] ++ [⟨0, 5000, ['h', 'i']⟩] :=
  ⟨(claim_C8_final_extension ⟨some [.dict ['h', 'i'] 0 1000], none, none⟩ [] 5000
      [.dict ['h', 'i'] 0 1000] rfl (by decide)).1,
    ((claim_C8_final_extension ⟨some [.dict ['h', 'i'] 0 1000], none, none⟩ [] 5000
      [.dict ['h', 'i'] 0 1000] rfl (by decide)).2 [⟨0, 1000, ['h', 'i']⟩]
      ⟨0, 1000, ['h', 'i']⟩ rfl).1 (by decide)⟩

end GenerateSrt
